import Mathlib

/-
Shallow embedding of the fifo-accounting FIFO ledger engine
(src/fifo.rs together with the domain types in fifo-types/src/core.rs).

Modelling conventions:
* rust_decimal::Decimal is modelled by the exact rationals Rat
  (checked_add over Rat never overflows, so the overflow expects vanish);
* chrono::NaiveDate is a year/month/day record, only equality and the
  year accessor being used by the engine;
* std::collections::HashMap is an association list with entry or_default
  semantics; independence from key iteration order is proved, not assumed;
* every Rust panic path (expect) is an Option failure of the embedding;
* process_selling_or_swap additionally reports, next to the updated map,
  the leftover input amount that Rust sends to log::error and, for each
  created fragment, the queue index of the inventory item it consumed.
  Both values are local variables of the Rust loop and do not influence
  the stored state.
-/

namespace Fifo

/-- Calendar date, models chrono::NaiveDate. -/
structure Date where
  year : Int
  month : Nat
  day : Nat
deriving DecidableEq, Repr

/-- Asset identifier, models AssetType (a newtype over the uppercase name). -/
abbrev Asset := String

/-- AssetType::is_fiat. -/
def Asset.is_fiat (a : Asset) : Bool := a == "USD" || a == "EUR"

/-- AssetType::EUR. -/
def Asset.EUR : Asset := "EUR"

/-- TransactionType. -/
inductive TxType where
  | Invoice | Swap | Interest | Buying | Selling | Bridge
  | Nft | Transfer | Airdrop | Lock | Fees
deriving DecidableEq, Repr

/-- Transaction from fifo-types/src/core.rs. -/
structure Transaction where
  ordinal : Nat
  date : Date
  tx_type : TxType
  input_type : Asset
  input_amount : Rat
  output_type : Asset
  output_amount : Rat
  note : String
deriving DecidableEq, Repr

/-- Transaction::cost_basis. -/
def Transaction.cost_basis (t : Transaction) : Option Rat :=
  if t.output_amount = 0 then none else some (t.input_amount / t.output_amount)

/-- Transaction::sale_price. -/
def Transaction.sale_price (t : Transaction) : Option Rat :=
  if t.input_amount = 0 ∨ ¬ t.output_type.is_fiat then none
  else some (t.output_amount / t.input_amount)

/-- InventoryItem from src/fifo.rs. -/
structure InventoryItem where
  ordinal : Nat
  date : Date
  acquisition_date : Date
  input_type : Asset
  input_amount : Rat
  output_type : Asset
  output_amount : Rat
  remaining_amount : Rat
  cost_basis : Rat
  sale_price : Option Rat
  parent_tx : Option Nat
  is_zero_cost : Bool
deriving DecidableEq, Repr

/-- InventoryItem::is_first_in_sequence. -/
def InventoryItem.is_first_in_sequence (it : InventoryItem) : Bool :=
  it.parent_tx.isNone

/-- InventoryItem::zero_cost_income. -/
def InventoryItem.zero_cost_income (it : InventoryItem) : Option Rat :=
  if it.is_zero_cost ∧ it.is_first_in_sequence then
    some (it.output_amount * it.cost_basis)
  else none

/-- InventoryItem::income. -/
def InventoryItem.income (it : InventoryItem) : Option Rat :=
  match it.sale_price, it.zero_cost_income with
  | some sp, none => some (it.input_amount * sp)
  | none, some inc => some inc
  | _, _ => none

/-- InventoryItem::expense. -/
def InventoryItem.expense (it : InventoryItem) : Option Rat :=
  it.sale_price.map (fun _ => it.input_amount * it.cost_basis)

/-- InventoryItem::profit. -/
def InventoryItem.profit (it : InventoryItem) : Option Rat :=
  match it.zero_cost_income with
  | some z => some z
  | none =>
    match it.income, it.expense with
    | some i, some e => some (i - e)
    | _, _ => none

/-- The HashMap of per-asset queues, as an association list. -/
abbrev LedgerMap := List (Asset × List InventoryItem)

/-- HashMap::get / get_mut. -/
def findAsset : LedgerMap → Asset → Option (List InventoryItem)
  | [], _ => none
  | (k, q) :: rest, a => if k = a then some q else findAsset rest a

/-- entry(a).or_default().push(it). -/
def entryPush : LedgerMap → Asset → InventoryItem → LedgerMap
  | [], a, it => [(a, [it])]
  | (k, q) :: rest, a, it =>
    if k = a then (k, q ++ [it]) :: rest else (k, q) :: entryPush rest a it

/-- entry(a).or_default().extend(its). -/
def entryExtend : LedgerMap → Asset → List InventoryItem → LedgerMap
  | [], a, its => [(a, its)]
  | (k, q) :: rest, a, its =>
    if k = a then (k, q ++ its) :: rest else (k, q) :: entryExtend rest a its

/-- Write back the queue that get_mut(a) handed out (key present). -/
def setAsset : LedgerMap → Asset → List InventoryItem → LedgerMap
  | [], _, _ => []
  | (k, q) :: rest, a, q' =>
    if k = a then (k, q') :: rest else (k, q) :: setAsset rest a q'

/-- Replace only the remaining_amount of an item (the only in-place
mutation the loop performs on a consumed inventory item). -/
def setRem (a : InventoryItem) (r : Rat) : InventoryItem :=
  { a with remaining_amount := r }

/-- The consumed_amount of one loop iteration: the whole remaining input
when the item can absorb it, otherwise the whole item remainder. -/
def consumedAmt (remIn rem : Rat) : Rat :=
  if remIn < rem then remIn else rem

/-- The (new_amount, updated remaining_output_amount) pair of one loop
iteration; once the remaining input reaches zero the entire remaining
output amount is assigned and the tracker is left untouched. -/
def allocAmt (t : Transaction) (consumed remIn' remOut : Rat) : Rat × Rat :=
  if remIn' = 0 then (remOut, remOut)
  else (t.output_amount * consumed / t.input_amount,
        remOut - t.output_amount * consumed / t.input_amount)

/-- The cost basis of a new fragment: the chaining rule. -/
def loopCb (t : Transaction) (item : InventoryItem) : Option Rat :=
  if t.output_type.is_fiat then some item.cost_basis
  else t.cost_basis.map (fun c => c * item.cost_basis)

/-- The new InventoryItem a consumption pushes onto new_items. -/
def mkFrag (t : Transaction) (item : InventoryItem)
    (consumed newAmount cb : Rat) : InventoryItem :=
  { ordinal := t.ordinal
    date := t.date
    acquisition_date := item.date
    input_type := t.input_type
    input_amount := consumed
    output_type := t.output_type
    output_amount := newAmount
    remaining_amount := newAmount
    cost_basis := cb
    sale_price := t.sale_price
    parent_tx := some t.ordinal
    is_zero_cost := item.is_zero_cost }

/--
The consumption loop of Ledger::process_selling_or_swap, recursing over the
input queue.  Arguments after the queue: remaining_input_amount,
remaining_output_amount, and the queue index of the head item (ghost).
Returns the updated queue, the final remaining input and output amounts,
and the created fragments each paired with the index of the item it
consumed.  The failure case is the expect on transaction.cost_basis()
inside the loop body.
-/
def sell_loop (t : Transaction) :
    List InventoryItem → Rat → Rat → Nat →
    Option (List InventoryItem × Rat × Rat × List (Nat × InventoryItem))
  | [], remIn, remOut, _ => some ([], remIn, remOut, [])
  | item :: rest, remIn, remOut, idx =>
    if ¬ 0 < item.remaining_amount then
      -- filtered out by remaining_amount > ZERO: skipped, left unchanged
      match sell_loop t rest remIn remOut (idx + 1) with
      | none => none
      | some (inv, ri, ro, frs) => some (item :: inv, ri, ro, frs)
    else if remIn = 0 then
      -- the loop breaks, leaving the rest of the queue untouched
      some (item :: rest, remIn, remOut, [])
    else
      match loopCb t item with
      | none => none
      | some cb =>
        match sell_loop t rest
            (remIn - consumedAmt remIn item.remaining_amount)
            (allocAmt t (consumedAmt remIn item.remaining_amount)
              (remIn - consumedAmt remIn item.remaining_amount) remOut).2
            (idx + 1) with
        | none => none
        | some (inv, ri, ro, frs) =>
          some (setRem item (item.remaining_amount - consumedAmt remIn item.remaining_amount) :: inv,
            ri, ro,
            (idx, mkFrag t item (consumedAmt remIn item.remaining_amount)
              (allocAmt t (consumedAmt remIn item.remaining_amount)
                (remIn - consumedAmt remIn item.remaining_amount) remOut).1 cb) :: frs)

/-- Result of one disposal: updated map, the leftover input amount that the
Rust code hands to log::error when nonzero, and the indexed fragments. -/
structure SellOut where
  map : LedgerMap
  leftover : Rat
  frags : List (Nat × InventoryItem)
deriving DecidableEq, Repr

/-- Ledger::process_selling_or_swap.  none models the two panics: the
missing input queue, and the missing cost basis inside the loop. -/
def process_selling_or_swap (s : LedgerMap) (t : Transaction) : Option SellOut :=
  match findAsset s t.input_type with
  | none => none
  | some inv =>
    match sell_loop t inv t.input_amount t.output_amount 0 with
    | none => none
    | some (inv', remIn', _, frags) =>
      some { map := entryExtend (setAsset s t.input_type inv') t.output_type
                      (frags.map Prod.snd)
             leftover := remIn'
             frags := frags }

/-- Ledger::process_buying.  none models the expect on cost_basis. -/
def process_buying (s : LedgerMap) (t : Transaction) : Option LedgerMap :=
  match t.cost_basis with
  | none => none
  | some cb =>
    some (entryPush s t.output_type
      { ordinal := t.ordinal
        date := t.date
        acquisition_date := t.date
        input_type := t.input_type
        input_amount := t.input_amount
        output_type := t.output_type
        output_amount := t.output_amount
        remaining_amount := t.output_amount
        cost_basis := cb
        sale_price := none
        parent_tx := none
        is_zero_cost := false })

/-- PriceProvider::get_price, the error message being dropped. -/
abbrev PriceProvider := Asset → Date → Option Rat

/-- Ledger::process_interest.  none models the expect on the price. -/
def process_interest (pp : PriceProvider) (s : LedgerMap) (t : Transaction) :
    Option LedgerMap :=
  match pp t.output_type t.date with
  | none => none
  | some price =>
    some (entryPush s t.output_type
      { ordinal := t.ordinal
        date := t.date
        acquisition_date := t.date
        input_type := Asset.EUR
        input_amount := 0
        output_type := t.output_type
        output_amount := t.output_amount
        remaining_amount := t.output_amount
        cost_basis := price
        sale_price := none
        parent_tx := none
        is_zero_cost := true })

/-- The dummy transaction synthesized by Ledger::process_transfer for a
same-asset Transfer/Bridge. -/
def dummy_tx (t : Transaction) : Transaction :=
  { ordinal := t.ordinal
    date := t.date
    tx_type := t.tx_type
    input_type := t.input_type
    input_amount := t.input_amount - t.output_amount
    output_type := Asset.EUR
    output_amount := 0
    note := t.note }

/-- Ledger::process_transfer. -/
def process_transfer (s : LedgerMap) (t : Transaction) : Option SellOut :=
  if t.input_type = t.output_type then
    process_selling_or_swap s (dummy_tx t)
  else
    process_selling_or_swap s t

/-- A ghost consumption event: input asset, queue index of the consumed
item, and the consumed amount (the input_amount of the fragment the loop
created for that item). -/
abbrev Event := Asset × Nat × Rat

/-- Events of one disposal. -/
def tx_events (a : Asset) (frags : List (Nat × InventoryItem)) : List Event :=
  frags.map (fun p => (a, p.1, p.2.input_amount))

/-- Ledger::add_transaction.  Returns the new map, the ghost consumption
events, and the leftover amount exactly when the Rust code logs it. -/
def add_transaction (pp : PriceProvider) (s : LedgerMap) (t : Transaction) :
    Option (LedgerMap × List Event × Option Rat) :=
  match t.tx_type with
  | .Buying | .Invoice =>
    (process_buying s t).map (fun s' => (s', [], none))
  | .Selling | .Fees | .Nft | .Swap | .Lock =>
    (process_selling_or_swap s t).map (fun r =>
      (r.map, tx_events t.input_type r.frags,
        if r.leftover = 0 then none else some r.leftover))
  | .Interest | .Airdrop =>
    (process_interest pp s t).map (fun s' => (s', [], none))
  | .Transfer | .Bridge =>
    (process_transfer s t).map (fun r =>
      (r.map, tx_events t.input_type r.frags,
        if r.leftover = 0 then none else some r.leftover))

/-- Ledger::process, folding add_transaction over the list and
accumulating the ghost events. -/
def process_from (pp : PriceProvider) :
    LedgerMap → List Transaction → Option (LedgerMap × List Event)
  | s, [] => some (s, [])
  | s, t :: ts =>
    match add_transaction pp s t with
    | none => none
    | some (s', ev, _) =>
      match process_from pp s' ts with
      | none => none
      | some (s'', evs) => some (s'', ev ++ evs)

/-- The ledger map built by Ledger::new from a transaction list. -/
def ledger_map (pp : PriceProvider) (txs : List Transaction) : Option LedgerMap :=
  (process_from pp [] txs).map Prod.fst

/-- Comparison used by the in_order sort (sort_by_key on the ordinal). -/
def itemLE (a b : InventoryItem) : Prop := a.ordinal ≤ b.ordinal

instance : DecidableRel itemLE := fun a b =>
  inferInstanceAs (Decidable (a.ordinal ≤ b.ordinal))

instance : IsTotal InventoryItem itemLE := ⟨fun a b => Nat.le_total a.ordinal b.ordinal⟩

instance : IsTrans InventoryItem itemLE := ⟨fun _ _ _ => Nat.le_trans⟩

/-- Ledger::in_order: flatten the per-asset queues and stable-sort by
ordinal (Rust sort_by_key is a stable sort; insertion sort is its model). -/
def in_order_from (m : LedgerMap) : List InventoryItem :=
  List.insertionSort itemLE ((m.map Prod.snd).flatten)

/-- YearlyReport from src/fifo.rs. -/
structure YearlyReport where
  year : Int
  income : Rat
  expense : Rat
  profit : Rat
deriving DecidableEq, Repr

/-- The four add blocks of the yearly_income_loss_report loop body. -/
def report_add_item (r : YearlyReport) (it : InventoryItem) : YearlyReport :=
  let r1 := match it.income with
    | some i => { r with income := r.income + i }
    | none => r
  let r2 := match it.expense with
    | some e => { r1 with expense := r1.expense + e }
    | none => r1
  let r3 := match it.profit with
    | some p => { r2 with profit := r2.profit + p }
    | none => r2
  match it.zero_cost_income with
  | some i => { r3 with income := r3.income + i, profit := r3.profit + i }
  | none => r3

/-- total_report.entry(year).or_insert_with(default), then the add blocks;
the HashMap of years is an association list in first-encounter order. -/
def upsert_year : List YearlyReport → InventoryItem → List YearlyReport
  | [], it =>
    [report_add_item { year := it.date.year, income := 0, expense := 0, profit := 0 } it]
  | r :: rest, it =>
    if r.year = it.date.year then report_add_item r it :: rest
    else r :: upsert_year rest it

/-- Comparison used by sorted_by_key on the year. -/
def yearLE (a b : YearlyReport) : Prop := a.year ≤ b.year

instance : DecidableRel yearLE := fun a b =>
  inferInstanceAs (Decidable (a.year ≤ b.year))

instance : IsTotal YearlyReport yearLE := ⟨fun a b => Int.le_total a.year b.year⟩

instance : IsTrans YearlyReport yearLE := ⟨fun _ _ _ => Int.le_trans⟩

/-- Ledger::yearly_income_loss_report before the final Display step: the
per-year records, sorted ascending by year. -/
def yearly_entries_from (m : LedgerMap) : List YearlyReport :=
  List.insertionSort yearLE ((in_order_from m).foldl upsert_year [])

/-! Specification-side helper definitions used by the theorems below. -/

/-- Total remaining amount of a queue. -/
def sumRem (q : List InventoryItem) : Rat :=
  (q.map (fun it => it.remaining_amount)).sum

/-- Sum of the input amounts of the fragments that consumed queue index j. -/
def eventSumFr (frs : List (Nat × InventoryItem)) (j : Nat) : Rat :=
  ((frs.filter (fun p => p.1 = j)).map (fun p => p.2.input_amount)).sum

/-- Sum of all consumption events touching queue index k of asset a. -/
def eventSum (evs : List Event) (a : Asset) (k : Nat) : Rat :=
  ((evs.filter (fun e => e.1 = a ∧ e.2.1 = k)).map (fun e => e.2.2)).sum

/-- Some item of the queue carries ordinal o. -/
def hasOrd (q : List InventoryItem) (o : Nat) : Prop :=
  ∃ it ∈ q, it.ordinal = o

/-- Everything the consumption loop guarantees structurally, with no
hypotheses on signs: the queue keeps its length and every field except
remaining_amount; fragment indices stay in range; the fragments consuming
index idx + k sum to exactly the decrement of item k; and every fragment
records the originating transaction and its consumed item as the source
writes them. -/
structure LoopFacts (t : Transaction) (q : List InventoryItem) (idx : Nat)
    (inv : List InventoryItem) (frs : List (Nat × InventoryItem)) : Prop where
  len : inv.length = q.length
  shape : ∀ (k : Nat) (h : k < q.length) (h' : k < inv.length),
    inv.get ⟨k, h'⟩ = setRem (q.get ⟨k, h⟩) ((inv.get ⟨k, h'⟩).remaining_amount)
  range : ∀ p ∈ frs, idx ≤ p.1 ∧ p.1 < idx + q.length
  consumed : ∀ (k : Nat) (h : k < q.length) (h' : k < inv.length),
    eventSumFr frs (idx + k) =
      (q.get ⟨k, h⟩).remaining_amount - (inv.get ⟨k, h'⟩).remaining_amount
  frag : ∀ p ∈ frs, ∃ (k : Nat) (h : k < q.length) (h' : k < inv.length),
    p.1 = idx + k ∧
    p.2.ordinal = t.ordinal ∧
    p.2.date = t.date ∧
    p.2.acquisition_date = (q.get ⟨k, h⟩).date ∧
    p.2.input_type = t.input_type ∧
    p.2.output_type = t.output_type ∧
    p.2.remaining_amount = p.2.output_amount ∧
    p.2.sale_price = t.sale_price ∧
    p.2.parent_tx = some t.ordinal ∧
    p.2.is_zero_cost = (q.get ⟨k, h⟩).is_zero_cost ∧
    (t.output_type.is_fiat = true → p.2.cost_basis = (q.get ⟨k, h⟩).cost_basis) ∧
    (t.output_type.is_fiat = false →
      ∃ c, t.cost_basis = some c ∧ p.2.cost_basis = c * (q.get ⟨k, h⟩).cost_basis) ∧
    p.2.input_amount =
      (q.get ⟨k, h⟩).remaining_amount - (inv.get ⟨k, h'⟩).remaining_amount

/-! Concrete sample data used to instantiate the theorems. -/

/-- Sample price provider: every asset costs 2 on every date. -/
def ppD : PriceProvider := fun _ _ => some 2

def dJan1 : Date := ⟨2023, 1, 1⟩
def dJan2 : Date := ⟨2023, 1, 2⟩
def dFeb1 : Date := ⟨2023, 2, 1⟩
def dMar1 : Date := ⟨2023, 3, 1⟩

/-- Buy 100 X for 100 EUR. -/
def txBuy100 : Transaction :=
  { ordinal := 1, date := dJan1, tx_type := .Buying, input_type := "EUR",
    input_amount := 100, output_type := "X", output_amount := 100, note := "" }

/-- Sell 40 X for 80 EUR. -/
def txSell40 : Transaction :=
  { ordinal := 2, date := dJan2, tx_type := .Selling, input_type := "X",
    input_amount := 40, output_type := "EUR", output_amount := 80, note := "" }

/-- Receive 100 X as interest. -/
def txInt100 : Transaction :=
  { ordinal := 1, date := dJan1, tx_type := .Interest, input_type := "EUR",
    input_amount := 0, output_type := "X", output_amount := 100, note := "" }

/-- Buy 10 A for 1000 EUR. -/
def txBuyA : Transaction :=
  { ordinal := 1, date := dJan1, tx_type := .Buying, input_type := "EUR",
    input_amount := 1000, output_type := "A", output_amount := 10, note := "" }

/-- Swap 10 A for 20 B. -/
def txSwapAB : Transaction :=
  { ordinal := 2, date := dFeb1, tx_type := .Swap, input_type := "A",
    input_amount := 10, output_type := "B", output_amount := 20, note := "" }

/-- Swap 20 B for 5 C. -/
def txSwapBC : Transaction :=
  { ordinal := 3, date := dMar1, tx_type := .Swap, input_type := "B",
    input_amount := 20, output_type := "C", output_amount := 5, note := "" }

/-- Buy 5 X for 5 EUR. -/
def txBuy5 : Transaction :=
  { ordinal := 1, date := dJan1, tx_type := .Buying, input_type := "EUR",
    input_amount := 5, output_type := "X", output_amount := 5, note := "" }

/-- Sell 10 X for 20 EUR (more than was ever acquired). -/
def txSell10 : Transaction :=
  { ordinal := 2, date := dJan2, tx_type := .Selling, input_type := "X",
    input_amount := 10, output_type := "EUR", output_amount := 20, note := "" }

/-- Transfer 10 X between wallets, 4 X arriving (6 X lost). -/
def txTrfLoss : Transaction :=
  { ordinal := 2, date := dJan2, tx_type := .Transfer, input_type := "X",
    input_amount := 10, output_type := "X", output_amount := 4, note := "" }

/-- Transfer 3 X between wallets with 7 X arriving (more out than in). -/
def txTrfGain : Transaction :=
  { ordinal := 2, date := dJan2, tx_type := .Transfer, input_type := "X",
    input_amount := 3, output_type := "X", output_amount := 7, note := "" }

/-- The inventory item the buy of txBuy100 creates, 40 X later consumed. -/
def itemBuy100after : InventoryItem :=
  { ordinal := 1, date := dJan1, acquisition_date := dJan1, input_type := "EUR",
    input_amount := 100, output_type := "X", output_amount := 100,
    remaining_amount := 60, cost_basis := 1, sale_price := none,
    parent_tx := none, is_zero_cost := false }

/-- The fragment the sale txSell40 creates. -/
def fragSell40 : InventoryItem :=
  { ordinal := 2, date := dJan2, acquisition_date := dJan1, input_type := "X",
    input_amount := 40, output_type := "EUR", output_amount := 80,
    remaining_amount := 80, cost_basis := 1, sale_price := some 2,
    parent_tx := some 2, is_zero_cost := false }

/-- The inventory item created by txBuy5. -/
def itemBuy5 : InventoryItem :=
  { ordinal := 1, date := dJan1, acquisition_date := dJan1, input_type := "EUR",
    input_amount := 5, output_type := "X", output_amount := 5,
    remaining_amount := 5, cost_basis := 1, sale_price := none,
    parent_tx := none, is_zero_cost := false }

/-- The inventory item created by txBuy100 before any consumption. -/
def itemBuy100full : InventoryItem :=
  { ordinal := 1, date := dJan1, acquisition_date := dJan1, input_type := "EUR",
    input_amount := 100, output_type := "X", output_amount := 100,
    remaining_amount := 100, cost_basis := 1, sale_price := none,
    parent_tx := none, is_zero_cost := false }

/-- itemBuy100full after the 6 X lost in txTrfLoss were consumed. -/
def itemAfterTrf : InventoryItem :=
  { ordinal := 1, date := dJan1, acquisition_date := dJan1, input_type := "EUR",
    input_amount := 100, output_type := "X", output_amount := 100,
    remaining_amount := 94, cost_basis := 1, sale_price := none,
    parent_tx := none, is_zero_cost := false }

/-- The zero-proceeds fragment created by txTrfLoss. -/
def fragTrf : InventoryItem :=
  { ordinal := 2, date := dJan2, acquisition_date := dJan1, input_type := "X",
    input_amount := 6, output_type := "EUR", output_amount := 0,
    remaining_amount := 0, cost_basis := 1, sale_price := some 0,
    parent_tx := some 2, is_zero_cost := false }

/-- The disposal result of processing txTrfLoss on one full 100 X lot. -/
def rC7 : SellOut :=
  { map := [("X", [itemAfterTrf]), ("EUR", [fragTrf])]
    leftover := 0
    frags := [(0, fragTrf)] }

/-- The ledger map after the chain buy A, swap A to B, swap B to C. -/
def mC3 : LedgerMap :=
  [("A", [⟨1, dJan1, dJan1, "EUR", 1000, "A", 10, 0, 100, none, none, false⟩]),
   ("B", [⟨2, dFeb1, dJan1, "A", 10, "B", 20, 0, 50, none, some 2, false⟩]),
   ("C", [⟨3, dMar1, dFeb1, "B", 20, "C", 5, 5, 200, none, some 3, false⟩])]

/-- Second buy of 100 X for 100 EUR, one day after txBuy100. -/
def txBuy100b : Transaction :=
  { ordinal := 2, date := dJan2, tx_type := .Buying, input_type := "EUR",
    input_amount := 100, output_type := "X", output_amount := 100, note := "" }

/-- Sell 150 X for 300 EUR: exhausts the first lot and half of the second. -/
def txSell150 : Transaction :=
  { ordinal := 3, date := dFeb1, tx_type := .Selling, input_type := "X",
    input_amount := 150, output_type := "EUR", output_amount := 300, note := "" }

/-- The second 100 X lot as created by txBuy100b. -/
def itemBuy100b : InventoryItem :=
  { ordinal := 2, date := dJan2, acquisition_date := dJan2, input_type := "EUR",
    input_amount := 100, output_type := "X", output_amount := 100,
    remaining_amount := 100, cost_basis := 1, sale_price := none,
    parent_tx := none, is_zero_cost := false }

/-- The fragment txSell150 creates from the first lot (100 X consumed). -/
def fragSell150a : InventoryItem :=
  { ordinal := 3, date := dFeb1, acquisition_date := dJan1, input_type := "X",
    input_amount := 100, output_type := "EUR", output_amount := 200,
    remaining_amount := 200, cost_basis := 1, sale_price := some 2,
    parent_tx := some 3, is_zero_cost := false }

/-- The fragment txSell150 creates from the second lot (50 X consumed). -/
def fragSell150b : InventoryItem :=
  { ordinal := 3, date := dFeb1, acquisition_date := dJan2, input_type := "X",
    input_amount := 50, output_type := "EUR", output_amount := 100,
    remaining_amount := 100, cost_basis := 1, sale_price := some 2,
    parent_tx := some 3, is_zero_cost := false }

/-- The ledger map after the two buys txBuy100 and txBuy100b. -/
def mC4 : LedgerMap := [("X", [itemBuy100full, itemBuy100b])]

/-- The ledger map after txSell150 consumed lot one fully and lot two in half. -/
def mC4sold : LedgerMap :=
  [("X", [setRem itemBuy100full 0, setRem itemBuy100b 50]),
   ("EUR", [fragSell150a, fragSell150b])]

/-- The consumption events txSell150 records. -/
def evC4 : List Event := [("X", 0, 100), ("X", 1, 50)]

/-- All stored remaining amounts are nonnegative. -/
def RemNonneg (s : LedgerMap) : Prop :=
  ∀ e ∈ s, ∀ it ∈ e.2, 0 ≤ it.remaining_amount

/-- No stored remaining amount exceeds its fragment output amount. -/
def RemLeOut (s : LedgerMap) : Prop :=
  ∀ e ∈ s, ∀ it ∈ e.2, it.remaining_amount ≤ it.output_amount

/-- The consumption events recorded so far account for exactly the consumed
part of every stored item. -/
def EvSums (s : LedgerMap) (evs : List Event) : Prop :=
  ∀ a q, findAsset s a = some q → ∀ (k : Nat) (h : k < q.length),
    eventSum evs a k =
      (q.get ⟨k, h⟩).output_amount - (q.get ⟨k, h⟩).remaining_amount

/-- Every event refers to an existing queue position. -/
def EvBdd (s : LedgerMap) (evs : List Event) : Prop :=
  ∀ ev ∈ evs, ∃ q, findAsset s ev.1 = some q ∧ ev.2.1 < q.length

/-- The amount-family state invariant of ledger processing. -/
structure InvA (s : LedgerMap) (evs : List Event) : Prop where
  nonneg : RemNonneg s
  le_out : RemLeOut s
  sums : EvSums s evs
  bdd : EvBdd s evs

/-- Conditions the claims put on a transaction sequence: nonnegative
amounts, and same-asset transfers that lose mass. -/
def AmountOk (t : Transaction) : Prop :=
  0 ≤ t.input_amount ∧ 0 ≤ t.output_amount ∧
    ((t.tx_type = TxType.Transfer ∨ t.tx_type = TxType.Bridge) →
      t.input_type = t.output_type → t.output_amount ≤ t.input_amount)

/-- The claims' side condition for the amended C8: no acquisition-type
transaction produces a fiat output asset. -/
def AcqNonFiat (t : Transaction) : Prop :=
  (t.tx_type = TxType.Buying ∨ t.tx_type = TxType.Invoice ∨
    t.tx_type = TxType.Interest ∨ t.tx_type = TxType.Airdrop) →
  t.output_type.is_fiat = false

/-- Every item stored under a fiat key is a disposal fragment. -/
def FiatParent (s : LedgerMap) : Prop :=
  ∀ e ∈ s, e.1.is_fiat = true → ∀ it ∈ e.2, it.parent_tx.isSome = true

/-- Any one transaction ordinal is stored under at most one asset key. -/
def SepOrd (s : LedgerMap) : Prop :=
  ∀ x ∈ s, ∀ y ∈ s, ∀ o : Nat, hasOrd x.2 o → hasOrd y.2 o → x.1 = y.1

/-- The ordering-family state invariant of ledger processing: keys are
unique, every queue is sorted by ordinal, all stored ordinals are below the
bound, and any one ordinal lives under a single key. -/
structure InvO (s : LedgerMap) (B : Nat) : Prop where
  nodup : (s.map Prod.fst).Nodup
  sorted : ∀ e ∈ s, e.2.Pairwise itemLE
  bdd : ∀ e ∈ s, ∀ it ∈ e.2, it.ordinal < B
  sep : SepOrd s

theorem setRem_self (a : InventoryItem) : setRem a a.remaining_amount = a := rfl

theorem get_zero_cons {α : Type} (a : α) (l : List α) (h : 0 < (a :: l).length) :
    (a :: l).get ⟨0, h⟩ = a := rfl

theorem get_succ_cons {α : Type} (a : α) (l : List α) (k : Nat)
    (h : k + 1 < (a :: l).length) :
    (a :: l).get ⟨k + 1, h⟩ = l.get ⟨k, Nat.lt_of_succ_lt_succ h⟩ := rfl

theorem eventSumFr_nil (j : Nat) : eventSumFr [] j = 0 := rfl

theorem eventSumFr_cons (p : Nat × InventoryItem) (frs : List (Nat × InventoryItem)) (j : Nat) :
    eventSumFr (p :: frs) j =
      (if p.1 = j then p.2.input_amount else 0) + eventSumFr frs j := by
  by_cases hp : p.1 = j <;> simp [eventSumFr, List.filter_cons, hp]

theorem eventSumFr_eq_zero (frs : List (Nat × InventoryItem)) (j : Nat)
    (h : ∀ p ∈ frs, p.1 ≠ j) : eventSumFr frs j = 0 := by
  induction frs with
  | nil => rfl
  | cons p frs ih =>
    rw [eventSumFr_cons, if_neg (h p (by simp)), ih (fun x hx => h x (by simp [hx]))]
    simp

/-- Shift a LoopFacts for the tail of the queue one position to the right:
the skipped or consumed head contributes the facts for index idx, the tail
facts move from idx + 1 to idx + (k + 1). -/
theorem LoopFacts.shift (t : Transaction) (item : InventoryItem)
    (rest inv : List InventoryItem) (idx : Nat) (frs : List (Nat × InventoryItem))
    (tail : LoopFacts t rest (idx + 1) inv frs) :
    LoopFacts t (item :: rest) idx (item :: inv) frs := by
  refine ⟨by simp [tail.len], ?_, ?_, ?_, ?_⟩
  · intro k hk hk'
    cases k with
    | zero => rw [get_zero_cons, get_zero_cons]; exact (setRem_self _).symm
    | succ k =>
      rw [get_succ_cons, get_succ_cons]
      exact tail.shape k _ _
  · intro p hp
    have := tail.range p hp
    simp only [List.length_cons]
    omega
  · intro k hk hk'
    cases k with
    | zero =>
      rw [get_zero_cons, get_zero_cons, Nat.add_zero, eventSumFr_eq_zero]
      · ring
      · intro p hp
        have := tail.range p hp
        omega
    | succ k =>
      have hk2 : idx + (k + 1) = (idx + 1) + k := by omega
      rw [get_succ_cons, get_succ_cons, hk2]
      exact tail.consumed k _ _
  · intro p hp
    obtain ⟨k, hk, hk', h1, hrest⟩ := tail.frag p hp
    refine ⟨k + 1, by simpa using hk, by simpa using hk', by omega, ?_⟩
    rw [get_succ_cons, get_succ_cons]
    exact hrest

theorem sell_loop_facts (t : Transaction) (q : List InventoryItem) :
    ∀ (remIn remOut : Rat) (idx : Nat) (inv : List InventoryItem) (ri ro : Rat)
      (frs : List (Nat × InventoryItem)),
      sell_loop t q remIn remOut idx = some (inv, ri, ro, frs) →
      LoopFacts t q idx inv frs := by
  induction q with
  | nil =>
    intro remIn remOut idx inv ri ro frs h
    simp only [sell_loop, Option.some.injEq, Prod.mk.injEq] at h
    obtain ⟨h1, _, _, h4⟩ := h
    subst h1; subst h4
    exact ⟨rfl, by intro k h _; exact absurd h (by simp),
      by intro p hp; exact absurd hp (by simp),
      by intro k h _; exact absurd h (by simp),
      by intro p hp; exact absurd hp (by simp)⟩
  | cons item rest ih =>
    intro remIn remOut idx inv ri ro frs h
    simp only [sell_loop] at h
    by_cases h0 : 0 < item.remaining_amount
    · rw [if_neg (not_not_intro h0)] at h
      by_cases hz : remIn = 0
      · rw [if_pos hz] at h
        simp only [Option.some.injEq, Prod.mk.injEq] at h
        obtain ⟨h1, _, _, h4⟩ := h
        subst h1; subst h4
        refine ⟨rfl, ?_, ?_, ?_, ?_⟩
        · intro k hk hk'
          exact (setRem_self _).symm
        · intro p hp; exact absurd hp (by simp)
        · intro k hk hk'; simp [eventSumFr_nil]
        · intro p hp; exact absurd hp (by simp)
      · rw [if_neg hz] at h
        rcases hcb : loopCb t item with _ | cb <;> rw [hcb] at h
        · exact absurd h (by simp)
        rcases hrec : sell_loop t rest
            (remIn - consumedAmt remIn item.remaining_amount)
            (allocAmt t (consumedAmt remIn item.remaining_amount)
              (remIn - consumedAmt remIn item.remaining_amount) remOut).2
            (idx + 1) with _ | ⟨inv', ri', ro', frs'⟩ <;> rw [hrec] at h
        · exact absurd h (by simp)
        simp only [Option.some.injEq, Prod.mk.injEq] at h
        obtain ⟨h1, _, _, h4⟩ := h
        subst h1; subst h4
        have tail := ih _ _ _ _ _ _ _ hrec
        refine ⟨by simp [tail.len], ?_, ?_, ?_, ?_⟩
        · intro k hk hk'
          cases k with
          | zero => rw [get_zero_cons, get_zero_cons]; rfl
          | succ k =>
            rw [get_succ_cons, get_succ_cons]
            exact tail.shape k _ _
        · intro p hp
          rcases List.mem_cons.mp hp with hp | hp
          · subst hp
            simp only [List.length_cons]
            omega
          · have := tail.range p hp
            simp only [List.length_cons]
            omega
        · intro k hk hk'
          cases k with
          | zero =>
            rw [get_zero_cons, get_zero_cons, Nat.add_zero, eventSumFr_cons, if_pos rfl,
              eventSumFr_eq_zero]
            · show consumedAmt remIn item.remaining_amount + 0 =
                item.remaining_amount -
                  (item.remaining_amount - consumedAmt remIn item.remaining_amount)
              ring
            · intro p hp
              have := tail.range p hp
              omega
          | succ k =>
            have hk2 : idx + (k + 1) = (idx + 1) + k := by omega
            rw [eventSumFr_cons, if_neg (by omega), get_succ_cons, get_succ_cons, hk2,
              tail.consumed k _ _]
            ring
        · intro p hp
          rcases List.mem_cons.mp hp with hp | hp
          · subst hp
            refine ⟨0, by simp, by simp [tail.len], rfl, rfl, rfl, rfl, rfl, rfl, rfl,
              rfl, rfl, rfl, ?_, ?_, ?_⟩
            · intro hf
              rw [loopCb, if_pos hf, Option.some.injEq] at hcb
              exact hcb.symm
            · intro hf
              rw [loopCb, if_neg (by simp [hf]), Option.map_eq_some'] at hcb
              obtain ⟨c0, hc0, hc1⟩ := hcb
              exact ⟨c0, hc0, hc1.symm⟩
            · show consumedAmt remIn item.remaining_amount =
                item.remaining_amount -
                  (item.remaining_amount - consumedAmt remIn item.remaining_amount)
              ring
          · obtain ⟨k, hk, hk', h1, hrest⟩ := tail.frag p hp
            refine ⟨k + 1, by simpa using hk, by simpa using hk', by omega, ?_⟩
            rw [get_succ_cons, get_succ_cons]
            exact hrest
    · rw [if_pos h0] at h
      rcases hrec : sell_loop t rest remIn remOut (idx + 1)
        with _ | ⟨inv', ri', ro', frs'⟩ <;> rw [hrec] at h
      · exact absurd h (by simp)
      simp only [Option.some.injEq, Prod.mk.injEq] at h
      obtain ⟨h1, _, _, h4⟩ := h
      subst h1; subst h4
      exact LoopFacts.shift t item rest inv' idx frs' (ih _ _ _ _ _ _ _ hrec)

theorem sumRem_nonneg (q : List InventoryItem)
    (h : ∀ it ∈ q, 0 ≤ it.remaining_amount) : 0 ≤ sumRem q := by
  induction q with
  | nil => simp [sumRem]
  | cons a l ih =>
    have h1 := h a (by simp)
    have h2 := ih (fun it hit => h it (by simp [hit]))
    simp only [sumRem, List.map_cons, List.sum_cons]
    have : sumRem l = (l.map (fun it => it.remaining_amount)).sum := rfl
    rw [this] at h2
    linarith

theorem sumRem_cons (a : InventoryItem) (l : List InventoryItem) :
    sumRem (a :: l) = a.remaining_amount + sumRem l := by
  simp [sumRem]

/-- With a zero remaining input the loop consumes nothing: it only skips
exhausted items until it breaks (or the queue ends). -/
theorem sell_loop_zero (t : Transaction) (q : List InventoryItem) :
    ∀ (remOut : Rat) (idx : Nat) (inv : List InventoryItem) (ri ro : Rat)
      (frs : List (Nat × InventoryItem)),
      sell_loop t q 0 remOut idx = some (inv, ri, ro, frs) →
      inv = q ∧ ri = 0 ∧ ro = remOut ∧ frs = [] := by
  induction q with
  | nil =>
    intro remOut idx inv ri ro frs h
    simp only [sell_loop, Option.some.injEq, Prod.mk.injEq] at h
    tauto
  | cons item rest ih =>
    intro remOut idx inv ri ro frs h
    simp only [sell_loop] at h
    by_cases h0 : 0 < item.remaining_amount
    · rw [if_neg (not_not_intro h0)] at h
      simp only [if_true, Option.some.injEq, Prod.mk.injEq] at h
      tauto
    · rw [if_pos h0] at h
      rcases hrec : sell_loop t rest 0 remOut (idx + 1)
        with _ | ⟨inv', ri', ro', frs'⟩ <;> rw [hrec] at h
      · exact absurd h (by simp)
      simp only [Option.some.injEq, Prod.mk.injEq] at h
      obtain ⟨h1, h2, h3, h4⟩ := h
      obtain ⟨g1, g2, g3, g4⟩ := ih _ _ _ _ _ _ hrec
      subst g1
      exact ⟨h1.symm, by rw [← h2, g2], by rw [← h3, g3], by rw [← h4, g4]⟩

/-- The loop can only fail on the cost-basis expect, which needs a
non-fiat output with zero output amount. -/
theorem sell_loop_some (t : Transaction) (q : List InventoryItem)
    (hcb : t.output_type.is_fiat = true ∨ t.output_amount ≠ 0) :
    ∀ (remIn remOut : Rat) (idx : Nat), ∃ out, sell_loop t q remIn remOut idx = some out := by
  have hcb' : ∀ item, ∃ c, loopCb t item = some c := by
    intro item
    rcases hcb with hf | hnz
    · exact ⟨item.cost_basis, by rw [loopCb, if_pos hf]⟩
    · by_cases hf : t.output_type.is_fiat
      · exact ⟨item.cost_basis, by rw [loopCb, if_pos hf]⟩
      · refine ⟨t.input_amount / t.output_amount * item.cost_basis, ?_⟩
        rw [loopCb, if_neg hf, Transaction.cost_basis, if_neg hnz]
        rfl
  induction q with
  | nil => intro remIn remOut idx; exact ⟨_, rfl⟩
  | cons item rest ih =>
    intro remIn remOut idx
    simp only [sell_loop]
    by_cases h0 : 0 < item.remaining_amount
    · rw [if_neg (not_not_intro h0)]
      by_cases hz : remIn = 0
      · rw [if_pos hz]
        exact ⟨_, rfl⟩
      · rw [if_neg hz]
        obtain ⟨c, hc⟩ := hcb' item
        rw [hc]
        obtain ⟨⟨inv', ri', ro', frs'⟩, hrec⟩ := ih
          (remIn - consumedAmt remIn item.remaining_amount)
          (allocAmt t (consumedAmt remIn item.remaining_amount)
            (remIn - consumedAmt remIn item.remaining_amount) remOut).2 (idx + 1)
        rw [hrec]
        exact ⟨_, rfl⟩
    · rw [if_pos h0]
      obtain ⟨⟨inv', ri', ro', frs'⟩, hrec⟩ := ih remIn remOut (idx + 1)
      rw [hrec]
      exact ⟨_, rfl⟩

/-- Basic bounds on the consumed amount of one iteration. -/
theorem consumedAmt_le_left (remIn rem : Rat) : consumedAmt remIn rem ≤ remIn ∨
    consumedAmt remIn rem = rem := by
  rw [consumedAmt]
  split_ifs with h
  · exact Or.inl le_rfl
  · exact Or.inr rfl

/-- Sign and monotonicity facts about the loop, for a run that starts from
the arguments Rust passes in (remaining input within the transaction input,
and the proportionality relation between the output and input trackers). -/
theorem sell_loop_signs (t : Transaction) (q : List InventoryItem) :
    ∀ (remIn remOut : Rat) (idx : Nat) (inv : List InventoryItem) (ri ro : Rat)
      (frs : List (Nat × InventoryItem)),
      sell_loop t q remIn remOut idx = some (inv, ri, ro, frs) →
      0 ≤ remIn → remIn ≤ t.input_amount →
      (remIn = 0 ∨ remOut * t.input_amount = t.output_amount * remIn) →
      0 ≤ t.output_amount →
      (∀ it ∈ q, 0 ≤ it.remaining_amount) →
      (0 ≤ ri ∧ ri ≤ remIn) ∧
      (∀ (k : Nat) (hk : k < q.length) (hk' : k < inv.length),
        0 ≤ (inv.get ⟨k, hk'⟩).remaining_amount ∧
        (inv.get ⟨k, hk'⟩).remaining_amount ≤ (q.get ⟨k, hk⟩).remaining_amount) ∧
      (∀ p ∈ frs, 0 ≤ p.2.output_amount ∧ 0 ≤ p.2.input_amount) := by
  induction q with
  | nil =>
    intro remIn remOut idx inv ri ro frs h hr0 hrIn hrel hout hq
    simp only [sell_loop, Option.some.injEq, Prod.mk.injEq] at h
    obtain ⟨h1, h2, _, h4⟩ := h
    subst h1; subst h4
    exact ⟨⟨h2 ▸ hr0, h2 ▸ le_rfl⟩, by intro k hk; exact absurd hk (by simp),
      by intro p hp; exact absurd hp (by simp)⟩
  | cons item rest ih =>
    intro remIn remOut idx inv ri ro frs h hr0 hrIn hrel hout hq
    have hqr : ∀ it ∈ rest, 0 ≤ it.remaining_amount := fun it hit => hq it (by simp [hit])
    simp only [sell_loop] at h
    by_cases h0 : 0 < item.remaining_amount
    · rw [if_neg (not_not_intro h0)] at h
      by_cases hz : remIn = 0
      · rw [if_pos hz] at h
        simp only [Option.some.injEq, Prod.mk.injEq] at h
        obtain ⟨h1, h2, _, h4⟩ := h
        subst h1; subst h4
        refine ⟨⟨h2 ▸ hr0, h2 ▸ le_rfl⟩, ?_, by intro p hp; exact absurd hp (by simp)⟩
        intro k hk hk'
        exact ⟨hq _ (List.get_mem _ _ _), le_rfl⟩
      · rw [if_neg hz] at h
        rcases hcb : loopCb t item with _ | cb <;> rw [hcb] at h
        · exact absurd h (by simp)
        rcases hrec : sell_loop t rest
            (remIn - consumedAmt remIn item.remaining_amount)
            (allocAmt t (consumedAmt remIn item.remaining_amount)
              (remIn - consumedAmt remIn item.remaining_amount) remOut).2
            (idx + 1) with _ | ⟨inv', ri', ro', frs'⟩ <;> rw [hrec] at h
        · exact absurd h (by simp)
        simp only [Option.some.injEq, Prod.mk.injEq] at h
        obtain ⟨h1, h2, h3, h4⟩ := h
        subst h1; subst h4
        -- facts about the consumed amount
        have hrpos : 0 < remIn := lt_of_le_of_ne hr0 (Ne.symm hz)
        have hinpos : 0 < t.input_amount := lt_of_lt_of_le hrpos hrIn
        have hc0 : 0 < consumedAmt remIn item.remaining_amount := by
          rw [consumedAmt]; split_ifs <;> assumption
        have hcIn : consumedAmt remIn item.remaining_amount ≤ remIn := by
          rw [consumedAmt]; split_ifs with hcase
          · exact le_rfl
          · exact le_of_not_lt hcase
        have hcRem : consumedAmt remIn item.remaining_amount ≤ item.remaining_amount := by
          rw [consumedAmt]; split_ifs with hcase
          · exact le_of_lt hcase
          · exact le_rfl
        have hrel2 : remOut * t.input_amount = t.output_amount * remIn :=
          hrel.resolve_left hz
        -- nonnegative remaining output at this point
        have hremOut : 0 ≤ remOut := by
          have : remOut = t.output_amount * remIn / t.input_amount := by
            field_simp at hrel2 ⊢
            linarith [hrel2]
          rw [this]
          positivity
        -- the new tracker pair
        have halloc : 0 ≤ (allocAmt t (consumedAmt remIn item.remaining_amount)
            (remIn - consumedAmt remIn item.remaining_amount) remOut).1 ∧
            ((remIn - consumedAmt remIn item.remaining_amount) = 0 ∨
              (allocAmt t (consumedAmt remIn item.remaining_amount)
                (remIn - consumedAmt remIn item.remaining_amount) remOut).2 * t.input_amount =
              t.output_amount * (remIn - consumedAmt remIn item.remaining_amount)) := by
          rw [allocAmt]
          split_ifs with hcase
          · exact ⟨hremOut, Or.inl hcase⟩
          · constructor
            · have : 0 ≤ t.output_amount * consumedAmt remIn item.remaining_amount /
                  t.input_amount := by positivity
              simpa using this
            · right
              have hdiv : t.output_amount * consumedAmt remIn item.remaining_amount /
                  t.input_amount * t.input_amount =
                  t.output_amount * consumedAmt remIn item.remaining_amount := by
                field_simp
              simp only [sub_mul, hdiv, hrel2]
              ring
        obtain ⟨IH1, IH2, IH3⟩ := ih _ _ _ _ _ _ _ hrec
          (by linarith) (by linarith) halloc.2 hout hqr
        refine ⟨⟨by linarith [IH1.1, h2], by linarith [IH1.2, h2, hc0]⟩, ?_, ?_⟩
        · intro k hk hk'
          cases k with
          | zero =>
            rw [get_zero_cons, get_zero_cons]
            constructor
            · show 0 ≤ item.remaining_amount - consumedAmt remIn item.remaining_amount
              linarith
            · show item.remaining_amount - consumedAmt remIn item.remaining_amount ≤
                item.remaining_amount
              linarith
          | succ k =>
            rw [get_succ_cons, get_succ_cons]
            exact IH2 k _ _
        · intro p hp
          rcases List.mem_cons.mp hp with hp | hp
          · subst hp
            exact ⟨halloc.1, le_of_lt hc0⟩
          · exact IH3 p hp
    · rw [if_pos h0] at h
      rcases hrec : sell_loop t rest remIn remOut (idx + 1)
        with _ | ⟨inv', ri', ro', frs'⟩ <;> rw [hrec] at h
      · exact absurd h (by simp)
      simp only [Option.some.injEq, Prod.mk.injEq] at h
      obtain ⟨h1, h2, _, h4⟩ := h
      subst h1; subst h4
      obtain ⟨IH1, IH2, IH3⟩ := ih _ _ _ _ _ _ _ hrec hr0 hrIn hrel hout hqr
      refine ⟨⟨by linarith [IH1.1, h2], by linarith [IH1.2, h2]⟩, ?_, IH3⟩
      intro k hk hk'
      cases k with
      | zero =>
        rw [get_zero_cons, get_zero_cons]
        exact ⟨hq item (by simp), le_rfl⟩
      | succ k =>
        rw [get_succ_cons, get_succ_cons]
        exact IH2 k _ _

/-- Exhaustion: when the requested amount exceeds the whole queue remainder,
the loop zeroes every item, the leftover is the exact shortfall, and the
fragments account for exactly the consumed total. -/
theorem sell_loop_sum_lt (t : Transaction) (q : List InventoryItem) :
    ∀ (remIn remOut : Rat) (idx : Nat) (inv : List InventoryItem) (ri ro : Rat)
      (frs : List (Nat × InventoryItem)),
      sell_loop t q remIn remOut idx = some (inv, ri, ro, frs) →
      (∀ it ∈ q, 0 ≤ it.remaining_amount) →
      sumRem q < remIn →
      ri = remIn - sumRem q ∧
      (∀ it ∈ inv, it.remaining_amount = 0) ∧
      (frs.map (fun p => p.2.input_amount)).sum = sumRem q := by
  induction q with
  | nil =>
    intro remIn remOut idx inv ri ro frs h hq hlt
    simp only [sell_loop, Option.some.injEq, Prod.mk.injEq] at h
    obtain ⟨h1, h2, _, h4⟩ := h
    subst h1; subst h4
    refine ⟨by rw [← h2]; simp [sumRem], by simp, by simp [sumRem]⟩
  | cons item rest ih =>
    intro remIn remOut idx inv ri ro frs h hq hlt
    have hqr : ∀ it ∈ rest, 0 ≤ it.remaining_amount := fun it hit => hq it (by simp [hit])
    have hsr : 0 ≤ sumRem rest := sumRem_nonneg rest hqr
    have hi0 : 0 ≤ item.remaining_amount := hq item (by simp)
    rw [sumRem_cons] at hlt
    simp only [sell_loop] at h
    by_cases h0 : 0 < item.remaining_amount
    · rw [if_neg (not_not_intro h0)] at h
      have hz : remIn ≠ 0 := by intro hz; rw [hz] at hlt; linarith
      rw [if_neg hz] at h
      rcases hcb : loopCb t item with _ | cb <;> rw [hcb] at h
      · exact absurd h (by simp)
      rcases hrec : sell_loop t rest
          (remIn - consumedAmt remIn item.remaining_amount)
          (allocAmt t (consumedAmt remIn item.remaining_amount)
            (remIn - consumedAmt remIn item.remaining_amount) remOut).2
          (idx + 1) with _ | ⟨inv', ri', ro', frs'⟩ <;> rw [hrec] at h
      · exact absurd h (by simp)
      simp only [Option.some.injEq, Prod.mk.injEq] at h
      obtain ⟨h1, h2, _, h4⟩ := h
      subst h1; subst h4
      have hcons : consumedAmt remIn item.remaining_amount = item.remaining_amount := by
        rw [consumedAmt, if_neg]
        intro hcase
        linarith
      rw [hcons] at hrec
      obtain ⟨g1, g2, g3⟩ := ih _ _ _ _ _ _ _ hrec hqr (by linarith)
      refine ⟨?_, ?_, ?_⟩
      · rw [← h2, g1, sumRem_cons]; ring
      · intro it hit
        rcases List.mem_cons.mp hit with hit | hit
        · subst hit
          show item.remaining_amount - consumedAmt remIn item.remaining_amount = 0
          rw [hcons]; ring
        · exact g2 it hit
      · simp only [List.map_cons, List.sum_cons, g3, sumRem_cons]
        show consumedAmt remIn item.remaining_amount + sumRem rest =
          item.remaining_amount + sumRem rest
        rw [hcons]
    · rw [if_pos h0] at h
      rcases hrec : sell_loop t rest remIn remOut (idx + 1)
        with _ | ⟨inv', ri', ro', frs'⟩ <;> rw [hrec] at h
      · exact absurd h (by simp)
      simp only [Option.some.injEq, Prod.mk.injEq] at h
      obtain ⟨h1, h2, _, h4⟩ := h
      subst h1; subst h4
      have hi : item.remaining_amount = 0 := le_antisymm (not_lt.mp h0) hi0
      obtain ⟨g1, g2, g3⟩ := ih _ _ _ _ _ _ _ hrec hqr (by linarith)
      refine ⟨?_, ?_, ?_⟩
      · rw [← h2, g1, sumRem_cons, hi]; ring
      · intro it hit
        rcases List.mem_cons.mp hit with hit | hit
        · subst hit; exact hi
        · exact g2 it hit
      · rw [g3, sumRem_cons, hi]; ring

/-- Sufficiency: when the requested amount is covered by the queue
remainder, the loop satisfies it completely and the queue total drops by
exactly the requested amount. -/
theorem sell_loop_sum_ge (t : Transaction) (q : List InventoryItem) :
    ∀ (remIn remOut : Rat) (idx : Nat) (inv : List InventoryItem) (ri ro : Rat)
      (frs : List (Nat × InventoryItem)),
      sell_loop t q remIn remOut idx = some (inv, ri, ro, frs) →
      (∀ it ∈ q, 0 ≤ it.remaining_amount) →
      0 ≤ remIn → remIn ≤ sumRem q →
      ri = 0 ∧ sumRem inv = sumRem q - remIn := by
  induction q with
  | nil =>
    intro remIn remOut idx inv ri ro frs h hq hr0 hle
    simp only [sell_loop, Option.some.injEq, Prod.mk.injEq] at h
    obtain ⟨h1, h2, _, _⟩ := h
    subst h1
    have : remIn = 0 := le_antisymm (by simpa [sumRem] using hle) hr0
    exact ⟨by rw [← h2, this], by rw [this]; simp [sumRem]⟩
  | cons item rest ih =>
    intro remIn remOut idx inv ri ro frs h hq hr0 hle
    have hqr : ∀ it ∈ rest, 0 ≤ it.remaining_amount := fun it hit => hq it (by simp [hit])
    have hsr : 0 ≤ sumRem rest := sumRem_nonneg rest hqr
    have hi0 : 0 ≤ item.remaining_amount := hq item (by simp)
    rw [sumRem_cons] at hle
    simp only [sell_loop] at h
    by_cases h0 : 0 < item.remaining_amount
    · rw [if_neg (not_not_intro h0)] at h
      by_cases hz : remIn = 0
      · rw [if_pos hz] at h
        simp only [Option.some.injEq, Prod.mk.injEq] at h
        obtain ⟨h1, h2, _, _⟩ := h
        subst h1
        exact ⟨by rw [← h2, hz], by rw [hz, sumRem_cons]; ring⟩
      · rw [if_neg hz] at h
        rcases hcb : loopCb t item with _ | cb <;> rw [hcb] at h
        · exact absurd h (by simp)
        rcases hrec : sell_loop t rest
            (remIn - consumedAmt remIn item.remaining_amount)
            (allocAmt t (consumedAmt remIn item.remaining_amount)
              (remIn - consumedAmt remIn item.remaining_amount) remOut).2
            (idx + 1) with _ | ⟨inv', ri', ro', frs'⟩ <;> rw [hrec] at h
        · exact absurd h (by simp)
        simp only [Option.some.injEq, Prod.mk.injEq] at h
        obtain ⟨h1, h2, _, _⟩ := h
        subst h1
        by_cases hcase : remIn < item.remaining_amount
        · have hcons : consumedAmt remIn item.remaining_amount = remIn := by
            rw [consumedAmt, if_pos hcase]
          rw [hcons, sub_self] at hrec
          obtain ⟨z1, z2, _, _⟩ := sell_loop_zero t rest _ _ _ _ _ _ hrec
          refine ⟨by rw [← h2, z2], ?_⟩
          rw [sumRem_cons, sumRem_cons, z1]
          show item.remaining_amount - consumedAmt remIn item.remaining_amount + sumRem rest =
            item.remaining_amount + sumRem rest - remIn
          rw [hcons]; ring
        · have hcons : consumedAmt remIn item.remaining_amount = item.remaining_amount := by
            rw [consumedAmt, if_neg hcase]
          rw [hcons] at hrec
          obtain ⟨g1, g2⟩ := ih _ _ _ _ _ _ _ hrec hqr
            (by linarith [not_lt.mp hcase]) (by linarith)
          refine ⟨by rw [← h2, g1], ?_⟩
          rw [sumRem_cons, sumRem_cons, g2]
          show item.remaining_amount - consumedAmt remIn item.remaining_amount +
            (sumRem rest - (remIn - item.remaining_amount)) =
            item.remaining_amount + sumRem rest - remIn
          rw [hcons]; ring
    · rw [if_pos h0] at h
      rcases hrec : sell_loop t rest remIn remOut (idx + 1)
        with _ | ⟨inv', ri', ro', frs'⟩ <;> rw [hrec] at h
      · exact absurd h (by simp)
      simp only [Option.some.injEq, Prod.mk.injEq] at h
      obtain ⟨h1, h2, _, _⟩ := h
      subst h1
      have hi : item.remaining_amount = 0 := le_antisymm (not_lt.mp h0) hi0
      obtain ⟨g1, g2⟩ := ih _ _ _ _ _ _ _ hrec hqr hr0 (by linarith)
      exact ⟨by rw [← h2, g1], by rw [sumRem_cons, sumRem_cons, g2, hi]; ring⟩

/-- FIFO order within one disposal: if the loop touched position j, every
earlier position ends the disposal with zero remaining amount. -/
theorem sell_loop_fifo (t : Transaction) (q : List InventoryItem) :
    ∀ (remIn remOut : Rat) (idx : Nat) (inv : List InventoryItem) (ri ro : Rat)
      (frs : List (Nat × InventoryItem)),
      sell_loop t q remIn remOut idx = some (inv, ri, ro, frs) →
      (∀ it ∈ q, 0 ≤ it.remaining_amount) →
      ∀ (i j : Nat) (hi : i < q.length) (hj : j < q.length)
        (hi' : i < inv.length) (hj' : j < inv.length), i < j →
        (inv.get ⟨j, hj'⟩).remaining_amount ≠ (q.get ⟨j, hj⟩).remaining_amount →
        (inv.get ⟨i, hi'⟩).remaining_amount = 0 := by
  induction q with
  | nil =>
    intro remIn remOut idx inv ri ro frs h hq i j hi
    exact absurd hi (by simp)
  | cons item rest ih =>
    intro remIn remOut idx inv ri ro frs h hq i j hi hj hi' hj' hij htouch
    have hqr : ∀ it ∈ rest, 0 ≤ it.remaining_amount := fun it hit => hq it (by simp [hit])
    have hi0 : 0 ≤ item.remaining_amount := hq item (by simp)
    simp only [sell_loop] at h
    by_cases h0 : 0 < item.remaining_amount
    · rw [if_neg (not_not_intro h0)] at h
      by_cases hz : remIn = 0
      · rw [if_pos hz] at h
        simp only [Option.some.injEq, Prod.mk.injEq] at h
        obtain ⟨h1, _, _, _⟩ := h
        subst h1
        exact absurd rfl htouch
      · rw [if_neg hz] at h
        rcases hcb : loopCb t item with _ | cb <;> rw [hcb] at h
        · exact absurd h (by simp)
        rcases hrec : sell_loop t rest
            (remIn - consumedAmt remIn item.remaining_amount)
            (allocAmt t (consumedAmt remIn item.remaining_amount)
              (remIn - consumedAmt remIn item.remaining_amount) remOut).2
            (idx + 1) with _ | ⟨inv', ri', ro', frs'⟩ <;> rw [hrec] at h
        · exact absurd h (by simp)
        simp only [Option.some.injEq, Prod.mk.injEq] at h
        obtain ⟨h1, _, _, _⟩ := h
        subst h1
        by_cases hcase : remIn < item.remaining_amount
        · -- the head absorbed everything: the tail is untouched
          have hcons : consumedAmt remIn item.remaining_amount = remIn := by
            rw [consumedAmt, if_pos hcase]
          rw [hcons, sub_self] at hrec
          obtain ⟨z1, _, _, _⟩ := sell_loop_zero t rest _ _ _ _ _ _ hrec
          subst z1
          -- j is positive because i < j, so position j is untouched
          cases j with
          | zero => exact absurd hij (by omega)
          | succ j =>
            rw [get_succ_cons, get_succ_cons] at htouch
            exact absurd rfl htouch
        · have hcons : consumedAmt remIn item.remaining_amount = item.remaining_amount := by
            rw [consumedAmt, if_neg hcase]
          cases i with
          | zero =>
            rw [get_zero_cons]
            show item.remaining_amount - consumedAmt remIn item.remaining_amount = 0
            rw [hcons]; ring
          | succ i =>
            cases j with
            | zero => exact absurd hij (by omega)
            | succ j =>
              rw [get_succ_cons, get_succ_cons] at htouch
              rw [get_succ_cons]
              exact ih _ _ _ _ _ _ _ hrec hqr i j
                (by simp only [List.length_cons] at hi; omega)
                (by simp only [List.length_cons] at hj; omega)
                (by simp only [List.length_cons] at hi'; omega)
                (by simp only [List.length_cons] at hj'; omega)
                (by omega) htouch
    · rw [if_pos h0] at h
      rcases hrec : sell_loop t rest remIn remOut (idx + 1)
        with _ | ⟨inv', ri', ro', frs'⟩ <;> rw [hrec] at h
      · exact absurd h (by simp)
      simp only [Option.some.injEq, Prod.mk.injEq] at h
      obtain ⟨h1, _, _, _⟩ := h
      subst h1
      cases i with
      | zero =>
        rw [get_zero_cons]
        exact le_antisymm (not_lt.mp h0) hi0
      | succ i =>
        cases j with
        | zero => exact absurd hij (by omega)
        | succ j =>
          rw [get_succ_cons, get_succ_cons] at htouch
          rw [get_succ_cons]
          exact ih _ _ _ _ _ _ _ hrec hqr i j
            (by simp only [List.length_cons] at hi; omega)
            (by simp only [List.length_cons] at hj; omega)
            (by simp only [List.length_cons] at hi'; omega)
            (by simp only [List.length_cons] at hj'; omega)
            (by omega) htouch

/-! Lemmas about the association-list model of the HashMap. -/

theorem findAsset_mem (s : LedgerMap) (a : Asset) (q : List InventoryItem)
    (h : findAsset s a = some q) : (a, q) ∈ s := by
  induction s with
  | nil => simp [findAsset] at h
  | cons e rest ih =>
    rcases e with ⟨k, qe⟩
    rw [findAsset] at h
    split_ifs at h with hk
    · subst hk
      simp only [Option.some.injEq] at h
      subst h
      simp
    · exact List.mem_cons_of_mem _ (ih h)

theorem findAsset_eq_none_iff (s : LedgerMap) (a : Asset) :
    findAsset s a = none ↔ a ∉ s.map Prod.fst := by
  induction s with
  | nil => simp [findAsset]
  | cons e rest ih =>
    rcases e with ⟨k, qe⟩
    rw [findAsset]
    split_ifs with hk
    · subst hk; simp
    · simp [ih, Ne.symm hk]

theorem findAsset_entryExtend_self (s : LedgerMap) (a : Asset)
    (its : List InventoryItem) :
    findAsset (entryExtend s a its) a = some ((findAsset s a).getD [] ++ its) := by
  induction s with
  | nil => simp [entryExtend, findAsset]
  | cons e rest ih =>
    rcases e with ⟨k, qe⟩
    rw [entryExtend]
    split_ifs with hk
    · subst hk; simp [findAsset]
    · rw [findAsset, if_neg hk, findAsset, if_neg hk]
      exact ih

theorem findAsset_entryExtend_ne (s : LedgerMap) (a b : Asset)
    (its : List InventoryItem) (hne : b ≠ a) :
    findAsset (entryExtend s a its) b = findAsset s b := by
  induction s with
  | nil => simp [entryExtend, findAsset, Ne.symm hne]
  | cons e rest ih =>
    rcases e with ⟨k, qe⟩
    rw [entryExtend]
    split_ifs with hk
    · subst hk
      rw [findAsset, if_neg (Ne.symm hne), findAsset, if_neg (Ne.symm hne)]
    · rw [findAsset, findAsset]
      split_ifs with hb
      · rfl
      · exact ih

theorem setAsset_of_none (s : LedgerMap) (a : Asset) (q' : List InventoryItem)
    (h : findAsset s a = none) : setAsset s a q' = s := by
  induction s with
  | nil => rfl
  | cons e rest ih =>
    rcases e with ⟨k, qe⟩
    rw [findAsset] at h
    split_ifs at h with hk
    rw [setAsset, if_neg hk, ih h]

theorem findAsset_setAsset_self (s : LedgerMap) (a : Asset)
    (q q' : List InventoryItem) (h : findAsset s a = some q) :
    findAsset (setAsset s a q') a = some q' := by
  induction s with
  | nil => simp [findAsset] at h
  | cons e rest ih =>
    rcases e with ⟨k, qe⟩
    rw [findAsset] at h
    rw [setAsset]
    split_ifs at h ⊢ with hk
    · rw [findAsset, if_pos hk]
    · rw [findAsset, if_neg hk]
      exact ih h

theorem findAsset_setAsset_ne (s : LedgerMap) (a b : Asset)
    (q' : List InventoryItem) (hne : b ≠ a) :
    findAsset (setAsset s a q') b = findAsset s b := by
  induction s with
  | nil => rfl
  | cons e rest ih =>
    rcases e with ⟨k, qe⟩
    rw [setAsset]
    split_ifs with hk
    · subst hk
      rw [findAsset, if_neg (Ne.symm hne), findAsset, if_neg (Ne.symm hne)]
    · rw [findAsset, findAsset]
      split_ifs with hb
      · rfl
      · exact ih

theorem mem_setAsset (s : LedgerMap) (a : Asset) (q' : List InventoryItem)
    (e : Asset × List InventoryItem) (h : e ∈ setAsset s a q') :
    e ∈ s ∨ (e.1 = a ∧ e.2 = q') := by
  induction s with
  | nil => simp [setAsset] at h
  | cons e0 rest ih =>
    rcases e0 with ⟨k, qe⟩
    rw [setAsset] at h
    split_ifs at h with hk
    · rcases List.mem_cons.mp h with h | h
      · subst h; right; exact ⟨hk, rfl⟩
      · exact Or.inl (List.mem_cons_of_mem _ h)
    · rcases List.mem_cons.mp h with h | h
      · subst h; exact Or.inl (by simp)
      · rcases ih h with h | h
        · exact Or.inl (List.mem_cons_of_mem _ h)
        · exact Or.inr h

theorem mem_entryExtend (s : LedgerMap) (a : Asset) (its : List InventoryItem)
    (e : Asset × List InventoryItem) (h : e ∈ entryExtend s a its) :
    e ∈ s ∨ (e.1 = a ∧ (e.2 = its ∨ ∃ q, (a, q) ∈ s ∧ e.2 = q ++ its)) := by
  induction s with
  | nil =>
    rw [entryExtend] at h
    rcases List.mem_cons.mp h with h | h
    · subst h; exact Or.inr ⟨rfl, Or.inl rfl⟩
    · simp at h
  | cons e0 rest ih =>
    rcases e0 with ⟨k, qe⟩
    rw [entryExtend] at h
    split_ifs at h with hk
    · subst hk
      rcases List.mem_cons.mp h with h | h
      · subst h; exact Or.inr ⟨rfl, Or.inr ⟨qe, by simp, rfl⟩⟩
      · exact Or.inl (List.mem_cons_of_mem _ h)
    · rcases List.mem_cons.mp h with h | h
      · subst h; exact Or.inl (by simp)
      · rcases ih h with h | ⟨h1, h2⟩
        · exact Or.inl (List.mem_cons_of_mem _ h)
        · refine Or.inr ⟨h1, ?_⟩
          rcases h2 with h2 | ⟨q0, hq0, hq1⟩
          · exact Or.inl h2
          · exact Or.inr ⟨q0, List.mem_cons_of_mem _ hq0, hq1⟩

theorem entryPush_eq_extend (s : LedgerMap) (a : Asset) (it : InventoryItem) :
    entryPush s a it = entryExtend s a [it] := by
  induction s with
  | nil => rfl
  | cons e0 rest ih =>
    rcases e0 with ⟨k, qe⟩
    rw [entryPush, entryExtend]
    split_ifs with hk
    · rfl
    · rw [ih]

theorem mem_entryPush (s : LedgerMap) (a : Asset) (it : InventoryItem)
    (e : Asset × List InventoryItem) (h : e ∈ entryPush s a it) :
    e ∈ s ∨ (e.1 = a ∧ (e.2 = [it] ∨ ∃ q, (a, q) ∈ s ∧ e.2 = q ++ [it])) := by
  rw [entryPush_eq_extend] at h
  exact mem_entryExtend s a [it] e h

theorem keys_setAsset (s : LedgerMap) (a : Asset) (q' : List InventoryItem) :
    (setAsset s a q').map Prod.fst = s.map Prod.fst := by
  induction s with
  | nil => rfl
  | cons e rest ih =>
    rcases e with ⟨k, qe⟩
    rw [setAsset]
    split_ifs with hk
    · subst hk; rfl
    · simp [ih]

theorem keys_entryExtend (s : LedgerMap) (a : Asset) (its : List InventoryItem) :
    (entryExtend s a its).map Prod.fst =
      if a ∈ s.map Prod.fst then s.map Prod.fst else s.map Prod.fst ++ [a] := by
  induction s with
  | nil => simp [entryExtend]
  | cons e rest ih =>
    rcases e with ⟨k, qe⟩
    by_cases hk : k = a
    · rw [entryExtend, if_pos hk]
      subst hk
      simp only [List.map_cons]
      rw [if_pos (by simp)]
    · rw [entryExtend, if_neg hk]
      simp only [List.map_cons]
      rw [ih]
      by_cases hmem : a ∈ rest.map Prod.fst
      · rw [if_pos hmem, if_pos (by simp [hmem])]
      · rw [if_neg hmem, if_neg (by simp [hmem, Ne.symm hk]), List.cons_append]

theorem keysNodup_entryExtend (s : LedgerMap) (a : Asset) (its : List InventoryItem)
    (h : (s.map Prod.fst).Nodup) : ((entryExtend s a its).map Prod.fst).Nodup := by
  rw [keys_entryExtend]
  split_ifs with hmem
  · exact h
  · refine h.append (List.nodup_singleton a) ?_
    intro x hx hx2
    simp only [List.mem_singleton] at hx2
    subst hx2
    exact hmem hx

theorem keysNodup_setAsset (s : LedgerMap) (a : Asset) (q' : List InventoryItem)
    (h : (s.map Prod.fst).Nodup) : ((setAsset s a q').map Prod.fst).Nodup := by
  rw [keys_setAsset]; exact h

theorem eventSum_nil (a : Asset) (k : Nat) : eventSum [] a k = 0 := rfl

theorem eventSum_append (l1 l2 : List Event) (a : Asset) (k : Nat) :
    eventSum (l1 ++ l2) a k = eventSum l1 a k + eventSum l2 a k := by
  simp [eventSum, List.filter_append]

theorem eventSum_tx_events_same (a : Asset) (frs : List (Nat × InventoryItem)) (k : Nat) :
    eventSum (tx_events a frs) a k = eventSumFr frs k := by
  induction frs with
  | nil => rfl
  | cons p frs ih =>
    simp only [tx_events, List.map_cons] at ih ⊢
    rw [eventSumFr_cons]
    by_cases hp : p.1 = k
    · simp only [eventSum, List.filter_cons] at ih ⊢
      rw [if_pos (by simp [hp]), if_pos hp]
      simp only [List.map_cons, List.sum_cons]
      rw [← ih]
    · simp only [eventSum, List.filter_cons] at ih ⊢
      rw [if_neg (by simp [hp]), if_neg hp]
      rw [← ih]
      simp

theorem eventSum_tx_events_ne (a b : Asset) (frs : List (Nat × InventoryItem)) (k : Nat)
    (hne : b ≠ a) : eventSum (tx_events a frs) b k = 0 := by
  induction frs with
  | nil => rfl
  | cons p frs ih =>
    simp only [tx_events, List.map_cons, eventSum, List.filter_cons] at ih ⊢
    rw [if_neg (by simp [Ne.symm hne])]
    exact ih

theorem eventSum_zero_of_no_index (evs : List Event) (a : Asset) (k : Nat)
    (h : ∀ ev ∈ evs, ev.1 = a → ev.2.1 ≠ k) : eventSum evs a k = 0 := by
  induction evs with
  | nil => rfl
  | cons ev evs ih =>
    simp only [eventSum, List.filter_cons] at ih ⊢
    rw [if_neg]
    · exact ih (fun x hx => h x (by simp [hx]))
    · intro hc
      simp only [decide_eq_true_eq] at hc
      exact h ev (by simp) hc.1 hc.2

theorem get_append_left {α : Type} (l1 l2 : List α) (k : Nat)
    (h1 : k < l1.length) (h : k < (l1 ++ l2).length) :
    (l1 ++ l2).get ⟨k, h⟩ = l1.get ⟨k, h1⟩ := by
  simp only [List.get_eq_getElem]
  exact List.getElem_append_left h1

theorem get_append_right {α : Type} (l1 l2 : List α) (k : Nat)
    (h1 : l1.length ≤ k) (h : k < (l1 ++ l2).length)
    (h2 : k - l1.length < l2.length) :
    (l1 ++ l2).get ⟨k, h⟩ = l2.get ⟨k - l1.length, h2⟩ := by
  simp only [List.get_eq_getElem]
  exact List.getElem_append_right h1

/-- Unfold one successful process_selling_or_swap into its pieces. -/
theorem sell_destruct (s : LedgerMap) (t : Transaction) (r : SellOut)
    (h : process_selling_or_swap s t = some r) :
    ∃ q inv' ri ro frs, findAsset s t.input_type = some q ∧
      sell_loop t q t.input_amount t.output_amount 0 = some (inv', ri, ro, frs) ∧
      r = ⟨entryExtend (setAsset s t.input_type inv') t.output_type (frs.map Prod.snd),
        ri, frs⟩ := by
  rw [process_selling_or_swap] at h
  split at h
  · exact absurd h (by simp)
  · rename_i q hq
    split at h
    · exact absurd h (by simp)
    · rename_i inv' ri ro frs hl
      simp only [Option.some.injEq] at h
      exact ⟨q, inv', ri, ro, frs, hq, hl, h.symm⟩

/-- Where every item of the updated map comes from. -/
theorem mem_item_sell (s : LedgerMap) (ain aout : Asset)
    (inv' frsItems : List InventoryItem) (e : Asset × List InventoryItem)
    (he : e ∈ entryExtend (setAsset s ain inv') aout frsItems)
    (it : InventoryItem) (hit : it ∈ e.2) :
    (∃ e0 ∈ s, it ∈ e0.2) ∨ it ∈ inv' ∨ it ∈ frsItems := by
  rcases mem_entryExtend _ _ _ _ he with he1 | ⟨hk, he2⟩
  · rcases mem_setAsset _ _ _ _ he1 with he1 | ⟨_, he3⟩
    · exact Or.inl ⟨e, he1, hit⟩
    · rw [he3] at hit
      exact Or.inr (Or.inl hit)
  · rcases he2 with he2 | ⟨q0, hq0, he2⟩
    · rw [he2] at hit
      exact Or.inr (Or.inr hit)
    · rw [he2] at hit
      rcases List.mem_append.mp hit with hit | hit
      · rcases mem_setAsset _ _ _ _ hq0 with hq0 | ⟨_, hq1⟩
        · exact Or.inl ⟨(aout, q0), hq0, hit⟩
        · have hit2 : it ∈ (aout, q0).2 := hit
          rw [hq1] at hit2
          exact Or.inr (Or.inl hit2)
      · exact Or.inr (Or.inr hit)

/-- The queue lookup after the two map updates of one disposal. -/
theorem findAsset_after_sell (s : LedgerMap) (ain aout : Asset)
    (q inv' frsItems : List InventoryItem) (hq : findAsset s ain = some q) (a : Asset) :
    findAsset (entryExtend (setAsset s ain inv') aout frsItems) a =
      if a = aout then
        some ((if ain = aout then inv' else (findAsset s a).getD []) ++ frsItems)
      else if a = ain then some inv'
      else findAsset s a := by
  by_cases h1 : a = aout
  · subst h1
    rw [if_pos rfl, findAsset_entryExtend_self]
    by_cases h2 : ain = a
    · subst h2
      rw [if_pos rfl, findAsset_setAsset_self s ain q inv' hq]
      rfl
    · rw [if_neg h2, findAsset_setAsset_ne s ain a inv' (Ne.symm h2)]
  · rw [if_neg h1, findAsset_entryExtend_ne _ _ _ _ h1]
    by_cases h2 : a = ain
    · subst h2
      rw [if_pos rfl, findAsset_setAsset_self s a q inv' hq]
    · rw [if_neg h2, findAsset_setAsset_ne s ain a inv' h2]

/-- One disposal (or disposal synthesized from a transfer) preserves the
amount-family invariant, logging its fragments as events. -/
theorem invA_sell (s : LedgerMap) (evs : List Event) (t : Transaction) (r : SellOut)
    (hs : InvA s evs) (hin : 0 ≤ t.input_amount) (hout : 0 ≤ t.output_amount)
    (h : process_selling_or_swap s t = some r) :
    InvA r.map (evs ++ tx_events t.input_type r.frags) := by
  obtain ⟨q, inv', ri, ro, frs, hq, hl, hr⟩ := sell_destruct s t r h
  subst hr
  have facts := sell_loop_facts t q _ _ _ _ _ _ _ hl
  have hmemq : (t.input_type, q) ∈ s := findAsset_mem s _ q hq
  have hqnn : ∀ it ∈ q, 0 ≤ it.remaining_amount := fun it hit => hs.nonneg _ hmemq it hit
  have hqle : ∀ it ∈ q, it.remaining_amount ≤ it.output_amount :=
    fun it hit => hs.le_out _ hmemq it hit
  have signs := sell_loop_signs t q _ _ _ _ _ _ _ hl hin le_rfl (Or.inr rfl) hout hqnn
  have hlen : inv'.length = q.length := facts.len
  have hconsumed : ∀ (k : Nat) (hk : k < q.length) (hk' : k < inv'.length),
      eventSumFr frs k =
        (q.get ⟨k, hk⟩).remaining_amount - (inv'.get ⟨k, hk'⟩).remaining_amount := by
    intro k hk hk'
    have := facts.consumed k hk hk'
    rwa [Nat.zero_add] at this
  have hrange : ∀ p ∈ frs, p.1 < q.length := by
    intro p hp
    have := facts.range p hp
    omega
  have hout_eq : ∀ (k : Nat) (hk : k < q.length) (hk' : k < inv'.length),
      (inv'.get ⟨k, hk'⟩).output_amount = (q.get ⟨k, hk⟩).output_amount := by
    intro k hk hk'
    rw [facts.shape k hk hk']
    rfl
  have hfrag_ok : ∀ it ∈ frs.map Prod.snd,
      it.remaining_amount = it.output_amount ∧ 0 ≤ it.output_amount := by
    intro it hit
    obtain ⟨p, hp, hpe⟩ := List.mem_map.mp hit
    subst hpe
    obtain ⟨k, hk, hk', _, _, _, _, _, _, hro, _, _, _, _, _, _⟩ := facts.frag p hp
    exact ⟨hro, (signs.2.2 p hp).1⟩
  have hinv_nn : ∀ it ∈ inv', 0 ≤ it.remaining_amount := by
    intro it hit
    obtain ⟨n, hn⟩ := List.mem_iff_get.mp hit
    subst hn
    exact (signs.2.1 n.1 (by omega) n.2).1
  have hinv_le : ∀ it ∈ inv', it.remaining_amount ≤ it.output_amount := by
    intro it hit
    obtain ⟨n, hn⟩ := List.mem_iff_get.mp hit
    subst hn
    have h1 := (signs.2.1 n.1 (by omega) n.2).2
    have h2 := hqle (q.get ⟨n.1, by omega⟩) (List.get_mem _ _ _)
    have h3 := hout_eq n.1 (by omega) n.2
    have h4 : (⟨n.1, n.2⟩ : Fin inv'.length) = n := rfl
    rw [← h4] at *
    rw [h3]
    exact le_trans h1 h2
  refine ⟨?_, ?_, ?_, ?_⟩
  · intro e he it hit
    rcases mem_item_sell s t.input_type t.output_type inv' (frs.map Prod.snd) e he it hit
      with ⟨e0, he0, hit0⟩ | hit0 | hit0
    · exact hs.nonneg e0 he0 it hit0
    · exact hinv_nn it hit0
    · obtain ⟨h1, h2⟩ := hfrag_ok it hit0
      rw [h1]; exact h2
  · intro e he it hit
    rcases mem_item_sell s t.input_type t.output_type inv' (frs.map Prod.snd) e he it hit
      with ⟨e0, he0, hit0⟩ | hit0 | hit0
    · exact hs.le_out e0 he0 it hit0
    · exact hinv_le it hit0
    · rw [(hfrag_ok it hit0).1]
  · intro a q2 hq2 k hk
    rw [findAsset_after_sell s t.input_type t.output_type q inv' (frs.map Prod.snd) hq a]
      at hq2
    rw [eventSum_append]
    by_cases ha1 : a = t.output_type
    · rw [if_pos ha1] at hq2
      simp only [Option.some.injEq] at hq2
      by_cases ha2 : t.input_type = a
      · -- input and output queues coincide
        rw [if_pos (ha1 ▸ ha2)] at hq2
        subst hq2
        subst ha2
        rw [eventSum_tx_events_same]
        by_cases hsmall : k < inv'.length
        · rw [get_append_left inv' (frs.map Prod.snd) k hsmall hk]
          rw [hs.sums _ q hq k (by omega), hconsumed k (by omega) hsmall,
            hout_eq k (by omega) hsmall]
          ring
        · -- a fresh fragment position: no events at all touch it
          push_neg at hsmall
          have hklen : k - inv'.length < (frs.map Prod.snd).length := by
            have := List.length_append inv' (frs.map Prod.snd)
            omega
          rw [get_append_right inv' (frs.map Prod.snd) k hsmall hk hklen]
          have hfr := hfrag_ok ((frs.map Prod.snd).get ⟨k - inv'.length, hklen⟩)
            (List.get_mem _ _ _)
          rw [hfr.1, sub_self]
          have hz1 : eventSum evs t.input_type k = 0 := by
            apply eventSum_zero_of_no_index
            intro ev hev hak
            obtain ⟨q0, hq0, hlt⟩ := hs.bdd ev hev
            rw [hak, hq] at hq0
            simp only [Option.some.injEq] at hq0
            subst hq0
            omega
          have hz2 : eventSumFr frs k = 0 := by
            apply eventSumFr_eq_zero
            intro p hp
            have := hrange p hp
            omega
          rw [hz1, hz2]
          ring
      · -- output queue distinct from the input queue
        rw [if_neg (fun hc => ha2 (hc.trans ha1.symm))] at hq2
        have hz2 : eventSum (tx_events t.input_type frs) a k = 0 :=
          eventSum_tx_events_ne t.input_type a frs k (fun hc => ha2 hc.symm)
        rw [hz2]
        rcases hq0 : findAsset s a with _ | q0
        · -- no previous queue for the output asset: all items are fragments
          rw [hq0] at hq2
          simp only [Option.getD_none, List.nil_append, Option.some.injEq] at hq2
          subst hq2
          have hz1 : eventSum evs a k = 0 := by
            apply eventSum_zero_of_no_index
            intro ev hev hak
            obtain ⟨qx, hqx, _⟩ := hs.bdd ev hev
            rw [hak, hq0] at hqx
            exact absurd hqx (by simp)
          have hfr := hfrag_ok ((frs.map Prod.snd).get ⟨k, hk⟩) (List.get_mem _ _ _)
          rw [hfr.1, sub_self, hz1]
          ring
        · rw [hq0] at hq2
          simp only [Option.getD_some, Option.some.injEq] at hq2
          subst hq2
          by_cases hsmall : k < q0.length
          · rw [get_append_left q0 (frs.map Prod.snd) k hsmall hk]
            rw [hs.sums a q0 hq0 k hsmall]
            ring
          · push_neg at hsmall
            have hklen : k - q0.length < (frs.map Prod.snd).length := by
              have := List.length_append q0 (frs.map Prod.snd)
              omega
            rw [get_append_right q0 (frs.map Prod.snd) k hsmall hk hklen]
            have hfr := hfrag_ok ((frs.map Prod.snd).get ⟨k - q0.length, hklen⟩)
              (List.get_mem _ _ _)
            have hz1 : eventSum evs a k = 0 := by
              apply eventSum_zero_of_no_index
              intro ev hev hak
              obtain ⟨qx, hqx, hlt⟩ := hs.bdd ev hev
              rw [hak, hq0] at hqx
              simp only [Option.some.injEq] at hqx
              subst hqx
              omega
            rw [hfr.1, sub_self, hz1]
            ring
    · -- not the output asset
      rw [if_neg ha1] at hq2
      by_cases ha2 : a = t.input_type
      · rw [if_pos ha2] at hq2
        simp only [Option.some.injEq] at hq2
        subst hq2
        subst ha2
        rw [eventSum_tx_events_same]
        rw [hs.sums _ q hq k (by omega), hconsumed k (by omega) hk,
          hout_eq k (by omega) hk]
        ring
      · rw [if_neg ha2] at hq2
        have hz2 : eventSum (tx_events t.input_type frs) a k = 0 :=
          eventSum_tx_events_ne t.input_type a frs k (fun hc => ha2 hc)
        rw [hz2, hs.sums a q2 hq2 k hk]
        ring
  · intro ev hev
    rcases List.mem_append.mp hev with hev | hev
    · obtain ⟨q0, hq0, hlt⟩ := hs.bdd ev hev
      rw [findAsset_after_sell s t.input_type t.output_type q inv' (frs.map Prod.snd) hq]
      by_cases ha1 : ev.1 = t.output_type
      · rw [if_pos ha1]
        refine ⟨_, rfl, ?_⟩
        by_cases ha2 : t.input_type = t.output_type
        · rw [if_pos ha2]
          have hq0q : q0 = q := by
            rw [ha1, ← ha2, hq] at hq0
            simpa using hq0.symm
          subst hq0q
          have := List.length_append inv' (frs.map Prod.snd)
          omega
        · rw [if_neg ha2]
          rw [hq0]
          have := List.length_append q0 (frs.map Prod.snd)
          simp only [Option.getD_some]
          omega
      · rw [if_neg ha1]
        by_cases ha2 : ev.1 = t.input_type
        · rw [if_pos ha2]
          have hq0q : q0 = q := by
            rw [ha2, hq] at hq0
            simpa using hq0.symm
          subst hq0q
          exact ⟨inv', rfl, by omega⟩
        · rw [if_neg ha2]
          exact ⟨q0, hq0, hlt⟩
    · obtain ⟨p, hp, hpe⟩ := List.mem_map.mp hev
      subst hpe
      have hplen := hrange p hp
      rw [findAsset_after_sell s t.input_type t.output_type q inv' (frs.map Prod.snd) hq]
      by_cases ha1 : t.input_type = t.output_type
      · rw [if_pos ha1, if_pos ha1]
        refine ⟨_, rfl, ?_⟩
        show p.1 < (inv' ++ frs.map Prod.snd).length
        have := List.length_append inv' (frs.map Prod.snd)
        omega
      · rw [if_neg ha1, if_pos rfl]
        refine ⟨inv', rfl, ?_⟩
        show p.1 < inv'.length
        omega

/-- A fresh acquisition item (full remaining amount, nonnegative output)
keeps the amount-family invariant; no events are recorded. -/
theorem invA_push (s : LedgerMap) (evs : List Event) (a : Asset) (it : InventoryItem)
    (hs : InvA s evs) (hrem : it.remaining_amount = it.output_amount)
    (hnn : 0 ≤ it.output_amount) : InvA (entryPush s a it) evs := by
  refine ⟨?_, ?_, ?_, ?_⟩
  · intro e he x hx
    rcases mem_entryPush s a it e he with he | ⟨_, he2⟩
    · exact hs.nonneg e he x hx
    · rcases he2 with he2 | ⟨q0, hq0, he2⟩ <;> rw [he2] at hx
      · simp only [List.mem_singleton] at hx
        subst hx
        rw [hrem]; exact hnn
      · rcases List.mem_append.mp hx with hx | hx
        · exact hs.nonneg (a, q0) hq0 x hx
        · simp only [List.mem_singleton] at hx
          subst hx
          rw [hrem]; exact hnn
  · intro e he x hx
    rcases mem_entryPush s a it e he with he | ⟨_, he2⟩
    · exact hs.le_out e he x hx
    · rcases he2 with he2 | ⟨q0, hq0, he2⟩ <;> rw [he2] at hx
      · simp only [List.mem_singleton] at hx
        subst hx
        rw [hrem]
      · rcases List.mem_append.mp hx with hx | hx
        · exact hs.le_out (a, q0) hq0 x hx
        · simp only [List.mem_singleton] at hx
          subst hx
          rw [hrem]
  · intro b q2 hq2 k hk
    rw [entryPush_eq_extend] at hq2
    by_cases hb : b = a
    · subst hb
      rw [findAsset_entryExtend_self] at hq2
      simp only [Option.some.injEq] at hq2
      rcases hq0 : findAsset s b with _ | q0 <;> rw [hq0] at hq2 <;>
        simp only [Option.getD_none, Option.getD_some, List.nil_append] at hq2 <;>
        subst hq2
      · -- previously absent: the single item is fresh
        have hz1 : eventSum evs b k = 0 := by
          apply eventSum_zero_of_no_index
          intro ev hev hak
          obtain ⟨qx, hqx, _⟩ := hs.bdd ev hev
          rw [hak, hq0] at hqx
          exact absurd hqx (by simp)
        simp only [List.length_singleton] at hk
        interval_cases k
        rw [hz1, get_zero_cons, hrem, sub_self]
      · by_cases hsmall : k < q0.length
        · rw [get_append_left q0 [it] k hsmall hk]
          exact hs.sums b q0 hq0 k hsmall
        · push_neg at hsmall
          have hklen : k - q0.length < [it].length := by
            have := List.length_append q0 [it]
            simp only [List.length_singleton] at this ⊢
            omega
          rw [get_append_right q0 [it] k hsmall hk hklen]
          have hz1 : eventSum evs b k = 0 := by
            apply eventSum_zero_of_no_index
            intro ev hev hak
            obtain ⟨qx, hqx, hlt⟩ := hs.bdd ev hev
            rw [hak, hq0] at hqx
            simp only [Option.some.injEq] at hqx
            subst hqx
            omega
          have : ([it].get ⟨k - q0.length, hklen⟩) = it := by
            have h0 : k - q0.length = 0 := by
              simp only [List.length_singleton] at hklen
              omega
            simp only [h0, get_zero_cons]
          rw [this, hz1, hrem, sub_self]
    · rw [findAsset_entryExtend_ne s a b [it] hb] at hq2
      exact hs.sums b q2 hq2 k hk
  · intro ev hev
    obtain ⟨q0, hq0, hlt⟩ := hs.bdd ev hev
    rw [entryPush_eq_extend]
    by_cases hb : ev.1 = a
    · rw [hb, findAsset_entryExtend_self]
      refine ⟨_, rfl, ?_⟩
      rw [← hb, hq0]
      have := List.length_append q0 [it]
      simp only [Option.getD_some]
      omega
    · rw [findAsset_entryExtend_ne s a ev.1 [it] hb]
      exact ⟨q0, hq0, hlt⟩

/-- One processed transaction preserves the amount-family invariant. -/
theorem invA_step (pp : PriceProvider) (s : LedgerMap) (evs : List Event)
    (t : Transaction) (hs : InvA s evs) (ht : AmountOk t)
    (s' : LedgerMap) (ev : List Event) (lg : Option Rat)
    (h : add_transaction pp s t = some (s', ev, lg)) : InvA s' (evs ++ ev) := by
  obtain ⟨hin, hout, htr⟩ := ht
  have hbuy : ∀ s1, process_buying s t = some s1 → InvA s1 evs := by
    intro s1 h1
    rw [process_buying] at h1
    rcases hcb : t.cost_basis with _ | cb <;> rw [hcb] at h1
    · exact absurd h1 (by simp)
    simp only [Option.some.injEq] at h1
    subst h1
    exact invA_push s evs t.output_type _ hs rfl hout
  have hint : ∀ s1, process_interest pp s t = some s1 → InvA s1 evs := by
    intro s1 h1
    rw [process_interest] at h1
    rcases hpp : pp t.output_type t.date with _ | price <;> rw [hpp] at h1
    · exact absurd h1 (by simp)
    simp only [Option.some.injEq] at h1
    subst h1
    exact invA_push s evs t.output_type _ hs rfl hout
  have hsell : ∀ r : SellOut, process_selling_or_swap s t = some r →
      InvA r.map (evs ++ tx_events t.input_type r.frags) :=
    fun r hr => invA_sell s evs t r hs hin hout hr
  have htrf : ∀ r : SellOut, process_transfer s t = some r →
      (t.tx_type = TxType.Transfer ∨ t.tx_type = TxType.Bridge) →
      InvA r.map (evs ++ tx_events t.input_type r.frags) := by
    intro r hr htt
    rw [process_transfer] at hr
    split_ifs at hr with heq
    · have hd := invA_sell s evs (dummy_tx t) r hs
        (by show 0 ≤ t.input_amount - t.output_amount
            have := htr htt heq
            linarith)
        (le_refl 0) hr
      exact hd
    · exact hsell r hr
  rw [add_transaction] at h
  cases htt : t.tx_type <;> rw [htt] at h <;>
    simp only [Option.map_eq_some', Prod.mk.injEq] at h <;>
    obtain ⟨x, h1, rfl, rfl, rfl⟩ := h
  case intro.intro.Invoice.intro.intro.intro.intro => rw [List.append_nil]; exact hbuy x h1
  case intro.intro.Buying.intro.intro.intro.intro => rw [List.append_nil]; exact hbuy x h1
  case intro.intro.Interest.intro.intro.intro.intro => rw [List.append_nil]; exact hint x h1
  case intro.intro.Airdrop.intro.intro.intro.intro => rw [List.append_nil]; exact hint x h1
  case intro.intro.Swap.intro.intro.intro.intro => exact hsell x h1
  case intro.intro.Selling.intro.intro.intro.intro => exact hsell x h1
  case intro.intro.Nft.intro.intro.intro.intro => exact hsell x h1
  case intro.intro.Lock.intro.intro.intro.intro => exact hsell x h1
  case intro.intro.Fees.intro.intro.intro.intro => exact hsell x h1
  case intro.intro.Transfer.intro.intro.intro.intro => exact htrf x h1 (Or.inl htt)
  case intro.intro.Bridge.intro.intro.intro.intro => exact htrf x h1 (Or.inr htt)

theorem invA_empty : InvA [] [] := by
  refine ⟨?_, ?_, ?_, ?_⟩
  · intro e he; exact absurd he (by simp)
  · intro e he; exact absurd he (by simp)
  · intro a q hq; simp [findAsset] at hq
  · intro ev hev; exact absurd hev (by simp)

/-- The amount-family invariant is preserved along any processed list. -/
theorem invA_process (pp : PriceProvider) (txs : List Transaction) :
    ∀ (s : LedgerMap) (evs : List Event), InvA s evs →
      (∀ t ∈ txs, AmountOk t) →
      ∀ (s' : LedgerMap) (evs' : List Event),
        process_from pp s txs = some (s', evs') → InvA s' (evs ++ evs') := by
  induction txs with
  | nil =>
    intro s evs hs _ s' evs' h
    simp only [process_from, Option.some.injEq, Prod.mk.injEq] at h
    obtain ⟨h1, h2⟩ := h
    subst h1; subst h2
    rw [List.append_nil]
    exact hs
  | cons t ts ih =>
    intro s evs hs hok s' evs' h
    rw [process_from] at h
    split at h
    · exact absurd h (by simp)
    · rename_i s1 ev lg h1
      split at h
      · exact absurd h (by simp)
      · rename_i s2 evs2 h2
        simp only [Option.some.injEq, Prod.mk.injEq] at h
        obtain ⟨h3, h4⟩ := h
        subst h3; subst h4
        have hstep := invA_step pp s evs t hs (hok t (by simp)) s1 ev lg h1
        have := ih s1 (evs ++ ev) hstep (fun x hx => hok x (by simp [hx])) s2 evs2 h2
        rwa [List.append_assoc] at this

/-- C5: given a transaction sequence with non-negative amounts in which
every Transfer/Bridge with equal input and output asset has
output_amount ≤ input_amount, after processing any prefix every inventory
item satisfies 0 ≤ remaining_amount ≤ output_amount, and the amounts
consumed from that item by later-created fragments (the recorded
consumption events) sum exactly to output_amount − remaining_amount. -/
theorem C5_mass_conservation (pp : PriceProvider) (txs p rest : List Transaction)
    (hsplit : txs = p ++ rest)
    (hok : ∀ t ∈ txs, AmountOk t)
    (s : LedgerMap) (evs : List Event)
    (h : process_from pp [] p = some (s, evs)) :
    ∀ a q, findAsset s a = some q → ∀ (k : Nat) (hk : k < q.length),
      0 ≤ (q.get ⟨k, hk⟩).remaining_amount ∧
      (q.get ⟨k, hk⟩).remaining_amount ≤ (q.get ⟨k, hk⟩).output_amount ∧
      eventSum evs a k =
        (q.get ⟨k, hk⟩).output_amount - (q.get ⟨k, hk⟩).remaining_amount := by
  have hokp : ∀ t ∈ p, AmountOk t := fun t ht =>
    hok t (by rw [hsplit]; exact List.mem_append.mpr (Or.inl ht))
  have hinv := invA_process pp p [] [] invA_empty hokp s evs h
  rw [List.nil_append] at hinv
  intro a q hq k hk
  exact ⟨hinv.nonneg _ (findAsset_mem s a q hq) _ (List.get_mem _ _ _),
    hinv.le_out _ (findAsset_mem s a q hq) _ (List.get_mem _ _ _),
    hinv.sums a q hq k hk⟩

theorem C5_mass_conservation_witness :
    (∀ t ∈ [txBuy100, txSell40], AmountOk t) ∧
    (0 ≤ ([itemBuy100after].get ⟨0, by decide⟩).remaining_amount ∧
      ([itemBuy100after].get ⟨0, by decide⟩).remaining_amount ≤
        ([itemBuy100after].get ⟨0, by decide⟩).output_amount ∧
      eventSum [("X", 0, 40)] "X" 0 =
        ([itemBuy100after].get ⟨0, by decide⟩).output_amount -
          ([itemBuy100after].get ⟨0, by decide⟩).remaining_amount) :=
  ⟨by norm_num [AmountOk, txBuy100, txSell40] <;> decide,
    C5_mass_conservation ppD [txBuy100, txSell40] [txBuy100, txSell40] []
      (by simp) (by norm_num [AmountOk, txBuy100, txSell40] <;> decide)
      [("X", [itemBuy100after]), ("EUR", [fragSell40])] [("X", 0, 40)]
      (by norm_num [process_from, add_transaction, process_buying,
        process_selling_or_swap, sell_loop, consumedAmt, allocAmt, loopCb,
        mkFrag, setRem, entryPush, entryExtend, setAsset, findAsset, tx_events,
        Transaction.cost_basis, Transaction.sale_price, Asset.is_fiat, Asset.EUR,
        txBuy100, txSell40, ppD, dJan1, dJan2, itemBuy100after, fragSell40] <;> decide)
      "X" [itemBuy100after] (by norm_num [findAsset]) 0 (by decide)⟩

/-- C6: a disposal that requests more than the total un-consumed remainder
of the input queue does not fail: processing returns a state (no panic),
the leftover handed to the error log is the exact shortfall, the created
fragments account exactly for the amount actually consumed, and the input
queue is left fully exhausted (its old lots at zero; only the appended
fragments of the disposal itself may carry value). -/
theorem C6_insufficient_inventory (s : LedgerMap) (t : Transaction)
    (q : List InventoryItem)
    (hq : findAsset s t.input_type = some q)
    (hnn : ∀ it ∈ q, 0 ≤ it.remaining_amount)
    (hlt : sumRem q < t.input_amount)
    (hcb : t.output_type.is_fiat = true ∨ t.output_amount ≠ 0) :
    ∃ r : SellOut, process_selling_or_swap s t = some r ∧
      r.leftover = t.input_amount - sumRem q ∧
      r.leftover ≠ 0 ∧
      (r.frags.map (fun p => p.2.input_amount)).sum = sumRem q ∧
      (∀ q2, findAsset r.map t.input_type = some q2 →
        ∀ (k : Nat) (hk : k < q2.length), (q2.get ⟨k, hk⟩).remaining_amount = 0 ∨
          (q2.get ⟨k, hk⟩) ∈ r.frags.map Prod.snd) := by
  obtain ⟨⟨inv', ri, ro, frs⟩, hloop⟩ :=
    sell_loop_some t q hcb t.input_amount t.output_amount 0
  obtain ⟨g1, g2, g3⟩ := sell_loop_sum_lt t q _ _ _ _ _ _ _ hloop hnn hlt
  refine ⟨⟨entryExtend (setAsset s t.input_type inv') t.output_type (frs.map Prod.snd),
    ri, frs⟩, ?_, ?_, ?_, ?_, ?_⟩
  · simp only [process_selling_or_swap, hq, hloop]
  · exact g1
  · show ri ≠ 0
    rw [g1]
    exact sub_ne_zero.mpr hlt.ne'
  · exact g3
  · intro q2 hq2 k hk
    rw [findAsset_after_sell s t.input_type t.output_type q inv' (frs.map Prod.snd) hq]
      at hq2
    by_cases h1 : t.input_type = t.output_type
    · rw [if_pos h1, if_pos h1] at hq2
      simp only [Option.some.injEq] at hq2
      subst hq2
      by_cases hsmall : k < inv'.length
      · left
        rw [get_append_left inv' (frs.map Prod.snd) k hsmall hk]
        exact g2 _ (List.get_mem _ _ _)
      · right
        push_neg at hsmall
        have hklen : k - inv'.length < (frs.map Prod.snd).length := by
          have := List.length_append inv' (frs.map Prod.snd)
          omega
        rw [get_append_right inv' (frs.map Prod.snd) k hsmall hk hklen]
        exact List.get_mem _ _ _
    · rw [if_neg h1, if_pos rfl] at hq2
      simp only [Option.some.injEq] at hq2
      subst hq2
      left
      exact g2 _ (List.get_mem _ _ _)

theorem C6_insufficient_inventory_witness :
    (findAsset [("X", [itemBuy5])] txSell10.input_type = some [itemBuy5] ∧
      (∀ it ∈ [itemBuy5], 0 ≤ it.remaining_amount) ∧
      sumRem [itemBuy5] < txSell10.input_amount) ∧
    (∃ r : SellOut, process_selling_or_swap [("X", [itemBuy5])] txSell10 = some r ∧
      r.leftover = txSell10.input_amount - sumRem [itemBuy5] ∧
      r.leftover ≠ 0 ∧
      (r.frags.map (fun p => p.2.input_amount)).sum = sumRem [itemBuy5] ∧
      (∀ q2, findAsset r.map txSell10.input_type = some q2 →
        ∀ (k : Nat) (hk : k < q2.length), (q2.get ⟨k, hk⟩).remaining_amount = 0 ∨
          (q2.get ⟨k, hk⟩) ∈ r.frags.map Prod.snd)) :=
  ⟨⟨by norm_num [findAsset, txSell10], by norm_num [itemBuy5],
      by norm_num [sumRem, itemBuy5, txSell10]⟩,
    C6_insufficient_inventory [("X", [itemBuy5])] txSell10 [itemBuy5]
      (by norm_num [findAsset, txSell10])
      (by norm_num [itemBuy5])
      (by norm_num [sumRem, itemBuy5, txSell10])
      (Or.inl rfl)⟩

theorem sumRem_append (l1 l2 : List InventoryItem) :
    sumRem (l1 ++ l2) = sumRem l1 + sumRem l2 := by
  simp [sumRem]

theorem sumRem_eq_zero (l : List InventoryItem)
    (h : ∀ it ∈ l, it.remaining_amount = 0) : sumRem l = 0 := by
  induction l with
  | nil => rfl
  | cons a l ih =>
    rw [sumRem_cons, h a (by simp), ih (fun it hit => h it (by simp [hit]))]
    ring

/-- With a zero output amount the loop only ever hands out zero-output
fragments (the proportional allocations vanish and the output tracker
stays at zero). -/
theorem sell_loop_out0 (t : Transaction) (q : List InventoryItem)
    (hto : t.output_amount = 0) :
    ∀ (remIn remOut : Rat) (idx : Nat) (inv : List InventoryItem) (ri ro : Rat)
      (frs : List (Nat × InventoryItem)),
      sell_loop t q remIn remOut idx = some (inv, ri, ro, frs) →
      remOut = 0 → ∀ p ∈ frs, p.2.output_amount = 0 := by
  induction q with
  | nil =>
    intro remIn remOut idx inv ri ro frs h h0 p hp
    simp only [sell_loop, Option.some.injEq, Prod.mk.injEq] at h
    obtain ⟨_, _, _, h4⟩ := h
    subst h4
    exact absurd hp (by simp)
  | cons item rest ih =>
    intro remIn remOut idx inv ri ro frs h h0 p hp
    simp only [sell_loop] at h
    by_cases hpos : 0 < item.remaining_amount
    · rw [if_neg (not_not_intro hpos)] at h
      by_cases hz : remIn = 0
      · rw [if_pos hz] at h
        simp only [Option.some.injEq, Prod.mk.injEq] at h
        obtain ⟨_, _, _, h4⟩ := h
        subst h4
        exact absurd hp (by simp)
      · rw [if_neg hz] at h
        rcases hcb : loopCb t item with _ | cb <;> rw [hcb] at h
        · exact absurd h (by simp)
        rcases hrec : sell_loop t rest
            (remIn - consumedAmt remIn item.remaining_amount)
            (allocAmt t (consumedAmt remIn item.remaining_amount)
              (remIn - consumedAmt remIn item.remaining_amount) remOut).2
            (idx + 1) with _ | ⟨inv', ri', ro', frs'⟩ <;> rw [hrec] at h
        · exact absurd h (by simp)
        simp only [Option.some.injEq, Prod.mk.injEq] at h
        obtain ⟨_, _, _, h4⟩ := h
        subst h4
        have halloc1 : (allocAmt t (consumedAmt remIn item.remaining_amount)
            (remIn - consumedAmt remIn item.remaining_amount) remOut).1 = 0 := by
          rw [allocAmt, hto, h0]
          split_ifs <;> simp
        have halloc2 : (allocAmt t (consumedAmt remIn item.remaining_amount)
            (remIn - consumedAmt remIn item.remaining_amount) remOut).2 = 0 := by
          rw [allocAmt, hto, h0]
          split_ifs <;> simp
        rcases List.mem_cons.mp hp with hp | hp
        · subst hp
          exact halloc1
        · exact ih _ _ _ _ _ _ _ hrec halloc2 p hp
    · rw [if_pos hpos] at h
      rcases hrec : sell_loop t rest remIn remOut (idx + 1)
        with _ | ⟨inv', ri', ro', frs'⟩ <;> rw [hrec] at h
      · exact absurd h (by simp)
      simp only [Option.some.injEq, Prod.mk.injEq] at h
      obtain ⟨_, _, _, h4⟩ := h
      subst h4
      exact ih _ _ _ _ _ _ _ hrec h0 p hp

/-- C7: a Transfer or Bridge with equal input and output asset is processed
exactly as the synthesized disposal with the same ordinal and date, input
amount input − output, fiat (EUR) output and zero output amount; with
different assets it is processed as the ordinary disposal.  Under the usual
side conditions the synthesized disposal consumes exactly input − output
units from the queue and each created fragment realizes a pure loss: zero
income, expense input_amount times the consumed lot's cost basis. -/
theorem C7_transfer_synthesis :
    (∀ (s : LedgerMap) (t : Transaction), t.input_type = t.output_type →
      process_transfer s t = process_selling_or_swap s (dummy_tx t)) ∧
    (∀ (s : LedgerMap) (t : Transaction), t.input_type ≠ t.output_type →
      process_transfer s t = process_selling_or_swap s t) ∧
    (∀ t : Transaction, (dummy_tx t).ordinal = t.ordinal ∧
      (dummy_tx t).date = t.date ∧
      (dummy_tx t).tx_type = t.tx_type ∧
      (dummy_tx t).input_type = t.input_type ∧
      (dummy_tx t).input_amount = t.input_amount - t.output_amount ∧
      (dummy_tx t).output_type = Asset.EUR ∧
      (dummy_tx t).output_amount = 0) ∧
    (∀ (s : LedgerMap) (t : Transaction) (r : SellOut) (q : List InventoryItem),
      t.input_type = t.output_type →
      findAsset s t.input_type = some q →
      (∀ it ∈ q, 0 ≤ it.remaining_amount) →
      0 ≤ t.input_amount - t.output_amount →
      t.input_amount - t.output_amount ≤ sumRem q →
      process_transfer s t = some r →
      r.leftover = 0 ∧
      (∀ q2, findAsset r.map t.input_type = some q2 →
        sumRem q2 = sumRem q - (t.input_amount - t.output_amount)) ∧
      (∀ p ∈ r.frags, p.2.income = some 0 ∧
        p.2.expense = some (p.2.input_amount * p.2.cost_basis) ∧
        p.2.profit = some (0 - p.2.input_amount * p.2.cost_basis) ∧
        ∃ (hk : p.1 < q.length), p.2.cost_basis = (q.get ⟨p.1, hk⟩).cost_basis)) := by
  refine ⟨?_, ?_, ?_, ?_⟩
  · intro s t heq
    rw [process_transfer, if_pos heq]
  · intro s t hne
    rw [process_transfer, if_neg hne]
  · intro t
    exact ⟨rfl, rfl, rfl, rfl, rfl, rfl, rfl⟩
  · intro s t r q heq hq hnn hd0 hdsum h
    rw [process_transfer, if_pos heq] at h
    obtain ⟨q', inv', ri, ro, frs, hq', hl, hr⟩ := sell_destruct s (dummy_tx t) r h
    have hqq : q = q' := by
      have : findAsset s t.input_type = some q' := hq'
      rw [hq] at this
      simpa using this
    subst hqq
    subst hr
    have facts := sell_loop_facts (dummy_tx t) q _ _ _ _ _ _ _ hl
    have hsum := sell_loop_sum_ge (dummy_tx t) q _ _ _ _ _ _ _ hl hnn hd0 hdsum
    rw [show (dummy_tx t).input_amount = t.input_amount - t.output_amount from rfl]
      at hsum
    have hfr0 : ∀ p ∈ frs, p.2.output_amount = 0 :=
      sell_loop_out0 (dummy_tx t) q rfl _ _ _ _ _ _ _ hl rfl
    have hdin : frs ≠ [] → t.input_amount - t.output_amount ≠ 0 := by
      intro hne hzero
      have hl0 : sell_loop (dummy_tx t) q 0 0 0 = some (inv', ri, ro, frs) := by
        have : (dummy_tx t).input_amount = 0 := hzero
        rwa [show (dummy_tx t).input_amount = t.input_amount - t.output_amount from rfl,
          hzero] at hl
      obtain ⟨_, _, _, z4⟩ := sell_loop_zero (dummy_tx t) q _ _ _ _ _ _ hl0
      exact hne z4
    refine ⟨hsum.1, ?_, ?_⟩
    · intro q2 hq2
      have hq2' : findAsset (entryExtend (setAsset s t.input_type inv') Asset.EUR
          (frs.map Prod.snd)) t.input_type = some q2 := hq2
      rw [findAsset_after_sell s t.input_type Asset.EUR q inv' (frs.map Prod.snd) hq]
        at hq2'
      by_cases hfiat : t.input_type = Asset.EUR
      · rw [if_pos hfiat, if_pos hfiat] at hq2'
        simp only [Option.some.injEq] at hq2'
        subst hq2'
        have hfr00 : sumRem (frs.map Prod.snd) = 0 := by
          apply sumRem_eq_zero
          intro it hit
          obtain ⟨p, hp, hpe⟩ := List.mem_map.mp hit
          subst hpe
          obtain ⟨k, hk, hk', _, _, _, _, _, _, hro, _, _, _, _, _, _⟩ := facts.frag p hp
          rw [hro]
          exact hfr0 p hp
        rw [sumRem_append, hsum.2, hfr00]
        ring
      · rw [if_neg hfiat, if_pos rfl] at hq2'
        simp only [Option.some.injEq] at hq2'
        subst hq2'
        exact hsum.2
    · intro p hp
      have hsale : p.2.sale_price = some 0 := by
        obtain ⟨k, hk, hk', _, _, _, _, _, _, _, hsp, _, _, _, _, _⟩ := facts.frag p hp
        rw [hsp, Transaction.sale_price,
          if_neg (by
            simp only [not_or]
            refine ⟨?_, by simp [dummy_tx, Asset.is_fiat, Asset.EUR]⟩
            exact hdin (by intro hc; rw [hc] at hp; exact absurd hp (by simp)))]
        show some ((0 : Rat) / (t.input_amount - t.output_amount)) = some 0
        rw [zero_div]
      have hparent : p.2.parent_tx = some t.ordinal := by
        obtain ⟨k, hk, hk', _, _, _, _, _, _, _, _, hpt, _, _, _, _⟩ := facts.frag p hp
        exact hpt
      have hzc : p.2.zero_cost_income = none := by
        rw [InventoryItem.zero_cost_income, if_neg]
        simp [InventoryItem.is_first_in_sequence, hparent]
      refine ⟨?_, ?_, ?_, ?_⟩
      · simp only [InventoryItem.income, hsale, hzc, mul_zero]
      · simp only [InventoryItem.expense, hsale, Option.map_some']
      · simp only [InventoryItem.profit, hzc, InventoryItem.income, hsale,
          InventoryItem.expense, Option.map_some', mul_zero]
      · obtain ⟨k, hk, hk', hpk, _, _, _, _, _, _, _, _, _, hcb, _, _⟩ := facts.frag p hp
        have hfia := hcb (by rfl)
        have hkp : p.1 = k := by omega
        refine ⟨by omega, ?_⟩
        simp only [hkp]
        exact hfia

theorem C7_transfer_synthesis_witness :
    (process_transfer [("X", [itemBuy100full])] txTrfLoss =
      process_selling_or_swap [("X", [itemBuy100full])] (dummy_tx txTrfLoss)) ∧
    (rC7.leftover = 0 ∧
      (∀ q2, findAsset rC7.map txTrfLoss.input_type = some q2 →
        sumRem q2 = sumRem [itemBuy100full] -
          (txTrfLoss.input_amount - txTrfLoss.output_amount)) ∧
      (∀ p ∈ rC7.frags, p.2.income = some 0 ∧
        p.2.expense = some (p.2.input_amount * p.2.cost_basis) ∧
        p.2.profit = some (0 - p.2.input_amount * p.2.cost_basis) ∧
        ∃ (hk : p.1 < [itemBuy100full].length),
          p.2.cost_basis = ([itemBuy100full].get ⟨p.1, hk⟩).cost_basis)) :=
  ⟨C7_transfer_synthesis.1 [("X", [itemBuy100full])] txTrfLoss rfl,
    C7_transfer_synthesis.2.2.2 [("X", [itemBuy100full])] txTrfLoss rC7
      [itemBuy100full] rfl
      (by norm_num [findAsset, txTrfLoss])
      (by norm_num [itemBuy100full])
      (by norm_num [txTrfLoss])
      (by norm_num [sumRem, itemBuy100full, txTrfLoss])
      (by norm_num [process_transfer, dummy_tx, process_selling_or_swap, sell_loop,
        consumedAmt, allocAmt, loopCb, mkFrag, setRem, entryExtend, setAsset,
        findAsset, Transaction.cost_basis, Transaction.sale_price, Asset.is_fiat,
        Asset.EUR, txTrfLoss, itemBuy100full, itemAfterTrf, fragTrf, rC7,
        dJan1, dJan2] <;> decide)⟩

/-- C3: every fragment of a disposal takes the consumed item's cost basis
when the output asset is fiat, and transaction.cost_basis() times the
consumed item's cost basis when it is not; consequently a buy at cb_A
followed by two non-fiat swaps at rates r1 = A_in/B_out and r2 = B_in/C_out
prices the final lot at cb_A * r1 * r2. -/
theorem C3_cost_basis_chaining :
    (∀ (s : LedgerMap) (t : Transaction) (r : SellOut) (q : List InventoryItem),
      process_selling_or_swap s t = some r →
      findAsset s t.input_type = some q →
      ∀ p ∈ r.frags, ∃ (hk : p.1 < q.length),
        (t.output_type.is_fiat = true →
          p.2.cost_basis = (q.get ⟨p.1, hk⟩).cost_basis) ∧
        (t.output_type.is_fiat = false →
          ∃ c, t.cost_basis = some c ∧
            p.2.cost_basis = c * (q.get ⟨p.1, hk⟩).cost_basis)) ∧
    (∀ (fEUR aOut bOut cOut : Rat) (A B C : Asset) (dA dB dC : Date)
        (pp : PriceProvider),
      B.is_fiat = false → C.is_fiat = false →
      0 < aOut → 0 < bOut → 0 < cOut →
      B ≠ A → C ≠ A → C ≠ B →
      ∀ m, ledger_map pp
        [⟨1, dA, TxType.Buying, "EUR", fEUR, A, aOut, ""⟩,
         ⟨2, dB, TxType.Swap, A, aOut, B, bOut, ""⟩,
         ⟨3, dC, TxType.Swap, B, bOut, C, cOut, ""⟩] = some m →
      ∃ frag, findAsset m C = some [frag] ∧
        frag.cost_basis = (fEUR / aOut) * (aOut / bOut) * (bOut / cOut)) := by
  constructor
  · intro s t r q h hq p hp
    obtain ⟨q', inv', ri, ro, frs, hq2, hl, hr⟩ := sell_destruct s t r h
    have hqq : q = q' := by
      rw [hq] at hq2
      simpa using hq2
    subst hqq
    subst hr
    have facts := sell_loop_facts t q _ _ _ _ _ _ _ hl
    obtain ⟨k, hk, hk', hpk, _, _, _, _, _, _, _, _, _, hfi, hnf, _⟩ := facts.frag p hp
    have hkp : p.1 = k := by omega
    refine ⟨by omega, ?_, ?_⟩
    · intro hfiat
      simp only [hkp]
      exact hfi hfiat
    · intro hfiat
      simp only [hkp]
      exact hnf hfiat
  · intro fEUR aOut bOut cOut A B C dA dB dC pp hfB hfC haOut hbOut hcOut hBA hCA hCB
    intro m hm
    have hBA2 : ¬ A = B := fun hc => hBA hc.symm
    have hCA2 : ¬ A = C := fun hc => hCA hc.symm
    have hCB2 : ¬ B = C := fun hc => hCB hc.symm
    rw [ledger_map] at hm
    rw [show process_from pp []
        [⟨1, dA, TxType.Buying, "EUR", fEUR, A, aOut, ""⟩,
         ⟨2, dB, TxType.Swap, A, aOut, B, bOut, ""⟩,
         ⟨3, dC, TxType.Swap, B, bOut, C, cOut, ""⟩] =
      some ([(A, [⟨1, dA, dA, "EUR", fEUR, A, aOut, 0, fEUR / aOut, none, none, false⟩]),
             (B, [⟨2, dB, dA, A, aOut, B, bOut, 0,
               aOut / bOut * (fEUR / aOut), none, some 2, false⟩]),
             (C, [⟨3, dC, dB, B, bOut, C, cOut, cOut,
               bOut / cOut * (aOut / bOut * (fEUR / aOut)), none, some 3, false⟩])],
            [(A, 0, aOut), (B, 0, bOut)]) from by
      norm_num [process_from, add_transaction, process_buying,
        process_selling_or_swap, findAsset, sell_loop, consumedAmt, allocAmt,
        loopCb, mkFrag, setRem, entryPush, entryExtend, setAsset, tx_events,
        Transaction.cost_basis, Transaction.sale_price, haOut.ne', hbOut.ne',
        hcOut.ne', haOut, hbOut, hcOut, hfB, hfC, hBA, hCA, hCB, hBA2, hCA2,
        hCB2, lt_self_iff_false, sub_self]] at hm
    simp only [Option.map_some', Option.some.injEq] at hm
    subst hm
    refine ⟨⟨3, dC, dB, B, bOut, C, cOut, cOut,
      bOut / cOut * (aOut / bOut * (fEUR / aOut)), none, some 3, false⟩, ?_, ?_⟩
    · rw [findAsset, if_neg hCA2, findAsset, if_neg hCB2, findAsset, if_pos rfl]
    · show bOut / cOut * (aOut / bOut * (fEUR / aOut)) =
        fEUR / aOut * (aOut / bOut) * (bOut / cOut)
      ring

theorem C3_cost_basis_chaining_witness :
    ∃ frag, findAsset mC3 "C" = some [frag] ∧
      frag.cost_basis = ((1000 : Rat) / 10) * (10 / 20) * (20 / 5) :=
  C3_cost_basis_chaining.2 1000 10 20 5 "A" "B" "C" dJan1 dFeb1 dMar1 ppD
    rfl rfl (by norm_num) (by norm_num) (by norm_num)
    (by decide) (by decide) (by decide) mC3
    (by norm_num [ledger_map, process_from, add_transaction, process_buying,
      process_selling_or_swap, findAsset, sell_loop, consumedAmt, allocAmt,
      loopCb, mkFrag, setRem, entryPush, entryExtend, setAsset, tx_events,
      Transaction.cost_basis, Transaction.sale_price,
      ppD, dJan1, dFeb1, dMar1, mC3,
      show Asset.is_fiat "A" = false from rfl,
      show Asset.is_fiat "B" = false from rfl,
      show Asset.is_fiat "C" = false from rfl,
      show ("A" : Asset) ≠ "B" from by decide,
      show ("A" : Asset) ≠ "C" from by decide,
      show ("B" : Asset) ≠ "A" from by decide,
      show ("B" : Asset) ≠ "C" from by decide,
      show ("C" : Asset) ≠ "A" from by decide,
      show ("C" : Asset) ≠ "B" from by decide])

/-- A negative remaining input is absorbed entirely by the first eligible
item: its remainder grows by the absolute value, exactly one fragment is
created, and the loop reports no leftover. -/
theorem sell_loop_neg (t : Transaction) (q : List InventoryItem) :
    ∀ (remIn remOut : Rat) (idx : Nat) (inv : List InventoryItem) (ri ro : Rat)
      (frs : List (Nat × InventoryItem)),
      sell_loop t q remIn remOut idx = some (inv, ri, ro, frs) →
      remIn < 0 →
      ∀ (j : Nat) (hj : j < q.length),
        (∀ (i : Nat) (hi : i < q.length), i < j →
          ¬ 0 < (q.get ⟨i, hi⟩).remaining_amount) →
        0 < (q.get ⟨j, hj⟩).remaining_amount →
        ri = 0 ∧
        (∃ cb, loopCb t (q.get ⟨j, hj⟩) = some cb ∧
          frs = [(idx + j, mkFrag t (q.get ⟨j, hj⟩) remIn remOut cb)]) ∧
        ∀ (hj' : j < inv.length),
          (inv.get ⟨j, hj'⟩).remaining_amount =
            (q.get ⟨j, hj⟩).remaining_amount - remIn := by
  induction q with
  | nil =>
    intro remIn remOut idx inv ri ro frs h hneg j hj
    exact absurd hj (by simp)
  | cons item rest ih =>
    intro remIn remOut idx inv ri ro frs h hneg j hj hfirst hpos
    simp only [sell_loop] at h
    cases j with
    | zero =>
      rw [get_zero_cons] at hpos
      rw [if_neg (not_not_intro hpos), if_neg (by intro hc; rw [hc] at hneg; exact absurd hneg (by norm_num))] at h
      rcases hcb : loopCb t item with _ | cb <;> rw [hcb] at h
      · exact absurd h (by simp)
      have hcons : consumedAmt remIn item.remaining_amount = remIn := by
        rw [consumedAmt, if_pos (lt_trans hneg hpos)]
      rw [hcons, sub_self] at h
      rcases hrec : sell_loop t rest 0
          (allocAmt t remIn 0 remOut).2 (idx + 1) with _ | ⟨inv', ri', ro', frs'⟩ <;>
        rw [hrec] at h
      · exact absurd h (by simp)
      obtain ⟨z1, z2, _, z4⟩ := sell_loop_zero t rest _ _ _ _ _ _ hrec
      simp only [Option.some.injEq, Prod.mk.injEq] at h
      obtain ⟨h1, h2, _, h4⟩ := h
      subst h1; subst h4
      refine ⟨by rw [← h2, z2], ?_, ?_⟩
      · refine ⟨cb, by rw [get_zero_cons]; exact hcb, ?_⟩
        rw [z4, Nat.add_zero, get_zero_cons]
        have halloc : (allocAmt t remIn 0 remOut).1 = remOut := by
          rw [allocAmt, if_pos rfl]
        rw [halloc]
      · intro hj'
        rw [get_zero_cons, get_zero_cons]
        rfl
    | succ j =>
      have hskip : ¬ 0 < item.remaining_amount := by
        have := hfirst 0 (by simp) (by omega)
        rwa [get_zero_cons] at this
      rw [if_pos hskip] at h
      rcases hrec : sell_loop t rest remIn remOut (idx + 1)
        with _ | ⟨inv', ri', ro', frs'⟩ <;> rw [hrec] at h
      · exact absurd h (by simp)
      simp only [Option.some.injEq, Prod.mk.injEq] at h
      obtain ⟨h1, h2, _, h4⟩ := h
      subst h1; subst h4
      rw [get_succ_cons] at hpos
      obtain ⟨g1, g2, g3⟩ := ih _ _ _ _ _ _ _ hrec hneg j
        (by simpa using hj)
        (by intro i hi hij
            have := hfirst (i + 1) (by simpa using hi) (by omega)
            rwa [get_succ_cons] at this)
        hpos
      refine ⟨by rw [← h2, g1], ?_, ?_⟩
      · obtain ⟨cb, hcb, hfrs⟩ := g2
        refine ⟨cb, by rw [get_succ_cons]; exact hcb, ?_⟩
        rw [hfrs, get_succ_cons]
        have : idx + 1 + j = idx + (j + 1) := by omega
        rw [this]
      · intro hj'
        rw [get_succ_cons, get_succ_cons]
        exact g3 (by simpa using hj')

/-- C10: a same-asset Transfer/Bridge whose output exceeds its input makes
the synthesized disposal's input amount negative; processing succeeds with
no logged shortfall, the first eligible lot's remaining amount grows by
output − input (so it can exceed that lot's output amount), and a single
fragment with negative input amount and zero output amount is appended to
the EUR queue. -/
theorem C10_transfer_gain (s : LedgerMap) (t : Transaction)
    (q : List InventoryItem)
    (htt : t.tx_type = TxType.Transfer ∨ t.tx_type = TxType.Bridge)
    (heq : t.input_type = t.output_type)
    (hgt : t.input_amount < t.output_amount)
    (hq : findAsset s t.input_type = some q)
    (j : Nat) (hj : j < q.length)
    (hfirst : ∀ (i : Nat) (hi : i < q.length), i < j →
      ¬ 0 < (q.get ⟨i, hi⟩).remaining_amount)
    (hpos : 0 < (q.get ⟨j, hj⟩).remaining_amount) :
    ∃ r : SellOut, process_transfer s t = some r ∧
      r.leftover = 0 ∧
      (∃ frag, r.frags = [(j, frag)] ∧
        frag.input_amount = t.input_amount - t.output_amount ∧
        frag.input_amount < 0 ∧
        frag.output_amount = 0 ∧
        (∃ qpre, findAsset r.map Asset.EUR = some (qpre ++ [frag]))) ∧
      (∀ q2, findAsset r.map t.input_type = some q2 → ∀ (hj2 : j < q2.length),
        (q2.get ⟨j, hj2⟩).remaining_amount =
          (q.get ⟨j, hj⟩).remaining_amount + (t.output_amount - t.input_amount)) := by
  have hneg : (dummy_tx t).input_amount < 0 := by
    show t.input_amount - t.output_amount < 0
    linarith
  obtain ⟨⟨inv', ri, ro, frs⟩, hloop⟩ := sell_loop_some (dummy_tx t) q
    (Or.inl rfl) (dummy_tx t).input_amount (dummy_tx t).output_amount 0
  have facts := sell_loop_facts (dummy_tx t) q _ _ _ _ _ _ _ hloop
  obtain ⟨g1, ⟨cb, hcb, hfrs⟩, g3⟩ :=
    sell_loop_neg (dummy_tx t) q _ _ _ _ _ _ _ hloop hneg j hj hfirst hpos
  rw [Nat.zero_add] at hfrs
  refine ⟨⟨entryExtend (setAsset s t.input_type inv') Asset.EUR (frs.map Prod.snd),
    ri, frs⟩, ?_, g1, ?_, ?_⟩
  · rw [process_transfer, if_pos heq]
    simp only [process_selling_or_swap, show findAsset s (dummy_tx t).input_type = some q
      from hq, hloop]
    rfl
  · refine ⟨mkFrag (dummy_tx t) (q.get ⟨j, hj⟩) (dummy_tx t).input_amount
      (dummy_tx t).output_amount cb, hfrs, rfl, hneg, rfl, ?_⟩
    refine ⟨if t.input_type = Asset.EUR then inv' else (findAsset s Asset.EUR).getD [], ?_⟩
    rw [findAsset_after_sell s t.input_type Asset.EUR q inv' (frs.map Prod.snd) hq,
      if_pos rfl, hfrs]
    rfl
  · intro q2 hq2 hj2
    have hq2' : findAsset (entryExtend (setAsset s t.input_type inv') Asset.EUR
        (frs.map Prod.snd)) t.input_type = some q2 := hq2
    rw [findAsset_after_sell s t.input_type Asset.EUR q inv' (frs.map Prod.snd) hq]
      at hq2'
    have hlen : inv'.length = q.length := facts.len
    by_cases hfiat : t.input_type = Asset.EUR
    · rw [if_pos hfiat, if_pos hfiat] at hq2'
      simp only [Option.some.injEq] at hq2'
      subst hq2'
      have hjlen : j < inv'.length := by omega
      rw [get_append_left inv' (frs.map Prod.snd) j hjlen hj2, g3 hjlen]
      show (q.get ⟨j, hj⟩).remaining_amount - (t.input_amount - t.output_amount) = _
      ring
    · rw [if_neg hfiat, if_pos rfl] at hq2'
      simp only [Option.some.injEq] at hq2'
      subst hq2'
      rw [g3 hj2]
      show (q.get ⟨j, hj⟩).remaining_amount - (t.input_amount - t.output_amount) = _
      ring

theorem C10_transfer_gain_witness :
    ∃ r : SellOut, process_transfer [("X", [itemBuy100full])] txTrfGain = some r ∧
      r.leftover = 0 ∧
      (∃ frag, r.frags = [(0, frag)] ∧
        frag.input_amount = txTrfGain.input_amount - txTrfGain.output_amount ∧
        frag.input_amount < 0 ∧
        frag.output_amount = 0 ∧
        (∃ qpre, findAsset r.map Asset.EUR = some (qpre ++ [frag]))) ∧
      (∀ q2, findAsset r.map txTrfGain.input_type = some q2 →
        ∀ (hj2 : 0 < q2.length),
        (q2.get ⟨0, hj2⟩).remaining_amount =
          ([itemBuy100full].get ⟨0, by decide⟩).remaining_amount +
            (txTrfGain.output_amount - txTrfGain.input_amount)) :=
  C10_transfer_gain [("X", [itemBuy100full])] txTrfGain [itemBuy100full]
    (Or.inl rfl) rfl (by norm_num [txTrfGain])
    (by norm_num [findAsset, txTrfGain]) 0 (by decide)
    (fun i hi hlt => absurd hlt (by omega))
    (by norm_num [itemBuy100full])

/-- C1: evaluating the code on its failing input.  An Interest transaction
for 100 units of X at a 2023 date, with the price provider returning 2 for
(X, date), contributes 400 = 2 * (100 * 2) to the year's income and profit
in the yearly report (the zero-cost income is added once through
item.income() and item.profit() and once more through the explicit
zero-cost block), not the 100 * 2 = 200 the claim states; the expense is
zero as claimed. -/
theorem C1_interest_double_count :
    (ledger_map ppD [txInt100]).map yearly_entries_from =
      some [⟨2023, 400, 0, 400⟩] ∧
    (400 : Rat) = 2 * (100 * 2) ∧ (400 : Rat) ≠ 100 * 2 := by
  refine ⟨?_, by norm_num, by norm_num⟩
  norm_num [ledger_map, process_from, add_transaction, process_interest, entryPush,
    yearly_entries_from, in_order_from, upsert_year, report_add_item,
    InventoryItem.income, InventoryItem.expense, InventoryItem.profit,
    InventoryItem.zero_cost_income, InventoryItem.is_first_in_sequence,
    ppD, txInt100, dJan1, Asset.EUR]

/-- C2: evaluating the code on its failing input.  After buy A (Jan 1),
swap A to B (Feb 1), swap B to C (Mar 1), the final fragment's
acquisition_date is Feb 1 — the consumed item's transaction date — whereas
the claim requires the consumed item's acquisition_date, Jan 1, the
original buy's date. -/
theorem C2_acquisition_date_not_preserved :
    ((ledger_map ppD [txBuyA, txSwapAB, txSwapBC]).bind
      (fun m => findAsset m "C")).map (List.map (fun it => it.acquisition_date)) =
      some [dFeb1] ∧ dFeb1 ≠ dJan1 := by
  refine ⟨?_, by decide⟩
  norm_num [ledger_map, process_from, add_transaction, process_buying,
    process_selling_or_swap, findAsset, sell_loop, consumedAmt, allocAmt,
    loopCb, mkFrag, setRem, entryPush, entryExtend, setAsset, tx_events,
    Transaction.cost_basis, Transaction.sale_price,
    ppD, txBuyA, txSwapAB, txSwapBC, dJan1, dFeb1, dMar1,
    show Asset.is_fiat "A" = false from rfl,
    show Asset.is_fiat "B" = false from rfl,
    show Asset.is_fiat "C" = false from rfl,
    show ("A" : Asset) ≠ "B" from by decide,
    show ("A" : Asset) ≠ "C" from by decide,
    show ("B" : Asset) ≠ "A" from by decide,
    show ("B" : Asset) ≠ "C" from by decide,
    show ("C" : Asset) ≠ "A" from by decide,
    show ("C" : Asset) ≠ "B" from by decide]

/-- C8, the counterexample: after buying 100 X for EUR and selling 40 X for
80 EUR, the ledger map holds a queue under the fiat key EUR containing the
sale fragment — fiat is keyed as inventory, contradicting the claim. -/
theorem C8_counterexample :
    (ledger_map ppD [txBuy100, txSell40]).bind (fun m => findAsset m "EUR") =
      some [fragSell40] ∧
    Asset.is_fiat "EUR" = true ∧ ([fragSell40] : List InventoryItem) ≠ [] := by
  refine ⟨?_, rfl, by simp⟩
  norm_num [ledger_map, process_from, add_transaction, process_buying,
    process_selling_or_swap, findAsset, sell_loop, consumedAmt, allocAmt,
    loopCb, mkFrag, setRem, entryPush, entryExtend, setAsset, tx_events,
    Transaction.cost_basis, Transaction.sale_price, Asset.is_fiat,
    ppD, txBuy100, txSell40, dJan1, dJan2, fragSell40,
    show ("X" : Asset) ≠ "EUR" from by decide,
    show ("EUR" : Asset) ≠ "X" from by decide]

/-- Item origin after a disposal, keeping the key of the entry. -/
theorem mem_item_sell_key (s : LedgerMap) (ain aout : Asset)
    (inv' frsItems : List InventoryItem) (e : Asset × List InventoryItem)
    (he : e ∈ entryExtend (setAsset s ain inv') aout frsItems)
    (it : InventoryItem) (hit : it ∈ e.2) :
    (∃ e0 ∈ s, e0.1 = e.1 ∧ it ∈ e0.2) ∨ (e.1 = ain ∧ it ∈ inv') ∨
      (e.1 = aout ∧ it ∈ frsItems) := by
  rcases mem_entryExtend _ _ _ _ he with he1 | ⟨hk, he2⟩
  · rcases mem_setAsset _ _ _ _ he1 with he1 | ⟨hk, he3⟩
    · exact Or.inl ⟨e, he1, rfl, hit⟩
    · rw [he3] at hit
      exact Or.inr (Or.inl ⟨hk, hit⟩)
  · rcases he2 with he2 | ⟨q0, hq0, he2⟩
    · rw [he2] at hit
      exact Or.inr (Or.inr ⟨hk, hit⟩)
    · rw [he2] at hit
      rcases List.mem_append.mp hit with hit | hit
      · rcases mem_setAsset _ _ _ _ hq0 with hq0 | ⟨hk2, hq1⟩
        · exact Or.inl ⟨(aout, q0), hq0, hk.symm, hit⟩
        · have hk3 : aout = ain := hk2
          have hit2 : it ∈ (aout, q0).2 := hit
          rw [hq1] at hit2
          exact Or.inr (Or.inl ⟨hk.trans hk3, hit2⟩)
      · exact Or.inr (Or.inr ⟨hk, hit⟩)

theorem fiatParent_sell (s : LedgerMap) (t : Transaction) (r : SellOut)
    (hs : FiatParent s) (h : process_selling_or_swap s t = some r) :
    FiatParent r.map := by
  obtain ⟨q, inv', ri, ro, frs, hq, hl, hr⟩ := sell_destruct s t r h
  subst hr
  have facts := sell_loop_facts t q _ _ _ _ _ _ _ hl
  intro e he hf it hit
  rcases mem_item_sell_key s t.input_type t.output_type inv' (frs.map Prod.snd)
    e he it hit with ⟨e0, he0, hk, hit0⟩ | ⟨hk, hit0⟩ | ⟨_, hit0⟩
  · exact hs e0 he0 (by rw [hk]; exact hf) it hit0
  · obtain ⟨n, hn⟩ := List.mem_iff_get.mp hit0
    subst hn
    have hlen : inv'.length = q.length := facts.len
    have hshape := facts.shape n.1 (by omega) n.2
    rw [hshape]
    show (q.get ⟨n.1, by omega⟩).parent_tx.isSome = true
    exact hs (t.input_type, q) (findAsset_mem s _ q hq)
      (by rw [← hk]; exact hf) _ (List.get_mem _ _ _)
  · obtain ⟨p, hp, hpe⟩ := List.mem_map.mp hit0
    subst hpe
    obtain ⟨k, hk1, hk2, _, _, _, _, _, _, _, _, hpt, _, _, _, _⟩ := facts.frag p hp
    rw [hpt]
    rfl

theorem fiatParent_push (s : LedgerMap) (a : Asset) (x : InventoryItem)
    (hs : FiatParent s) (hnf : a.is_fiat = false) :
    FiatParent (entryPush s a x) := by
  intro e he hf it hit
  rcases mem_entryPush s a x e he with he1 | ⟨hk, he2⟩
  · exact hs e he1 hf it hit
  · rw [hk] at hf
    rw [hnf] at hf
    exact absurd hf (by simp)

theorem fiatParent_step (pp : PriceProvider) (s : LedgerMap) (t : Transaction)
    (hs : FiatParent s) (ht : AcqNonFiat t)
    (s' : LedgerMap) (ev : List Event) (lg : Option Rat)
    (h : add_transaction pp s t = some (s', ev, lg)) : FiatParent s' := by
  have hbuy : ∀ s1, process_buying s t = some s1 →
      (t.tx_type = TxType.Buying ∨ t.tx_type = TxType.Invoice) → FiatParent s1 := by
    intro s1 h1 htt
    rw [process_buying] at h1
    rcases hcb : t.cost_basis with _ | cb <;> rw [hcb] at h1
    · exact absurd h1 (by simp)
    simp only [Option.some.injEq] at h1
    subst h1
    exact fiatParent_push s t.output_type _ hs (ht (by tauto))
  have hint : ∀ s1, process_interest pp s t = some s1 →
      (t.tx_type = TxType.Interest ∨ t.tx_type = TxType.Airdrop) → FiatParent s1 := by
    intro s1 h1 htt
    rw [process_interest] at h1
    rcases hpp : pp t.output_type t.date with _ | price <;> rw [hpp] at h1
    · exact absurd h1 (by simp)
    simp only [Option.some.injEq] at h1
    subst h1
    exact fiatParent_push s t.output_type _ hs (ht (by tauto))
  have htrf : ∀ r : SellOut, process_transfer s t = some r → FiatParent r.map := by
    intro r hr
    rw [process_transfer] at hr
    split_ifs at hr with heq
    · exact fiatParent_sell s (dummy_tx t) r hs hr
    · exact fiatParent_sell s t r hs hr
  rw [add_transaction] at h
  cases htt : t.tx_type <;> rw [htt] at h <;>
    simp only [Option.map_eq_some', Prod.mk.injEq] at h <;>
    obtain ⟨x, h1, rfl, rfl, rfl⟩ := h
  case Invoice.intro.intro.intro.intro => exact hbuy x h1 (Or.inr htt)
  case Buying.intro.intro.intro.intro => exact hbuy x h1 (Or.inl htt)
  case Interest.intro.intro.intro.intro => exact hint x h1 (Or.inl htt)
  case Airdrop.intro.intro.intro.intro => exact hint x h1 (Or.inr htt)
  case Swap.intro.intro.intro.intro => exact fiatParent_sell s t x hs h1
  case Selling.intro.intro.intro.intro => exact fiatParent_sell s t x hs h1
  case Nft.intro.intro.intro.intro => exact fiatParent_sell s t x hs h1
  case Lock.intro.intro.intro.intro => exact fiatParent_sell s t x hs h1
  case Fees.intro.intro.intro.intro => exact fiatParent_sell s t x hs h1
  case Transfer.intro.intro.intro.intro => exact htrf x h1
  case Bridge.intro.intro.intro.intro => exact htrf x h1

theorem fiatParent_process (pp : PriceProvider) (txs : List Transaction) :
    ∀ s, FiatParent s → (∀ t ∈ txs, AcqNonFiat t) →
      ∀ s' evs', process_from pp s txs = some (s', evs') → FiatParent s' := by
  induction txs with
  | nil =>
    intro s hs _ s' evs' h
    simp only [process_from, Option.some.injEq, Prod.mk.injEq] at h
    rw [← h.1]
    exact hs
  | cons t ts ih =>
    intro s hs hok s' evs' h
    rw [process_from] at h
    split at h
    · exact absurd h (by simp)
    · rename_i s1 ev lg h1
      split at h
      · exact absurd h (by simp)
      · rename_i s2 evs2 h2
        simp only [Option.some.injEq, Prod.mk.injEq] at h
        rw [← h.1]
        exact ih s1 (fiatParent_step pp s t hs (hok t (by simp)) s1 ev lg h1)
          (fun x hx => hok x (by simp [hx])) s2 evs2 h2

/-- C8, amended: the ledger map does key disposal fragments under fiat
(the counterexample shows the EUR queue holding the sale fragment), but —
provided no acquisition-type transaction outputs a fiat asset — every item
stored under a fiat key is a disposal fragment (it has a parent
transaction), never an acquisition lot. -/
theorem C8_fiat_only_fragments (pp : PriceProvider) (txs : List Transaction)
    (hacq : ∀ t ∈ txs, AcqNonFiat t) (s : LedgerMap) (evs : List Event)
    (h : process_from pp [] txs = some (s, evs)) :
    ∀ e ∈ s, e.1.is_fiat = true → ∀ it ∈ e.2, it.parent_tx.isSome = true :=
  fiatParent_process pp txs [] (by intro e he; exact absurd he (by simp)) hacq s evs h

theorem C8_fiat_only_fragments_witness :
    (∀ t ∈ [txBuy100, txSell40], AcqNonFiat t) ∧
    (∀ e ∈ [("X", [itemBuy100after]), ("EUR", [fragSell40])],
      Asset.is_fiat (e : Asset × List InventoryItem).1 = true →
      ∀ it ∈ e.2, it.parent_tx.isSome = true) :=
  ⟨by intro t ht
      rcases List.mem_cons.mp ht with rfl | ht
      · intro _; rfl
      · rcases List.mem_cons.mp ht with rfl | ht
        · intro hc
          rcases hc with hc | hc | hc | hc <;> exact absurd hc (by decide)
        · exact absurd ht (by simp),
    C8_fiat_only_fragments ppD [txBuy100, txSell40]
      (by intro t ht
          rcases List.mem_cons.mp ht with rfl | ht
          · intro _; rfl
          · rcases List.mem_cons.mp ht with rfl | ht
            · intro hc
              rcases hc with hc | hc | hc | hc <;> exact absurd hc (by decide)
            · exact absurd ht (by simp))
      [("X", [itemBuy100after]), ("EUR", [fragSell40])] [("X", 0, 40)]
      (by norm_num [process_from, add_transaction, process_buying,
        process_selling_or_swap, sell_loop, consumedAmt, allocAmt, loopCb,
        mkFrag, setRem, entryPush, entryExtend, setAsset, findAsset, tx_events,
        Transaction.cost_basis, Transaction.sale_price, Asset.is_fiat, Asset.EUR,
        txBuy100, txSell40, ppD, dJan1, dJan2, itemBuy100after, fragSell40] <;>
        decide)⟩

/-- Filtering one ordinal class through an ordered insertion: the inserted
item lands in front of its class, every skipped item being strictly
smaller. -/
theorem filter_orderedInsert_ord (o : Nat) (a : InventoryItem)
    (l : List InventoryItem) :
    (List.orderedInsert itemLE a l).filter (fun it => it.ordinal == o) =
      if a.ordinal = o then a :: l.filter (fun it => it.ordinal == o)
      else l.filter (fun it => it.ordinal == o) := by
  induction l with
  | nil =>
    rw [List.orderedInsert, List.filter_cons, List.filter_nil]
    by_cases ha : a.ordinal = o
    · rw [if_pos (by simp [ha]), if_pos ha]
    · rw [if_neg (by simp [ha]), if_neg ha]
  | cons b l ih =>
    rw [List.orderedInsert]
    by_cases hab : itemLE a b
    · rw [if_pos hab]
      by_cases ha : a.ordinal = o
      · rw [if_pos ha, List.filter_cons, if_pos (by simp [ha])]
      · rw [if_neg ha, List.filter_cons, if_neg (by simp [ha])]
    · rw [if_neg hab]
      have hba : b.ordinal < a.ordinal := by
        have : ¬ a.ordinal ≤ b.ordinal := hab
        omega
      rw [List.filter_cons]
      by_cases hb : b.ordinal = o
      · have ha : ¬ a.ordinal = o := by omega
        rw [if_pos (by simp [hb]), ih, if_neg ha, if_neg ha,
          List.filter_cons, if_pos (by simp [hb])]
      · rw [if_neg (by simp [hb]), ih]
        by_cases ha : a.ordinal = o
        · rw [if_pos ha, if_pos ha, List.filter_cons, if_neg (by simp [hb])]
        · rw [if_neg ha, if_neg ha, List.filter_cons, if_neg (by simp [hb])]

/-- Stability of the sort underlying in_order: within one ordinal class the
sorted list keeps the input order. -/
theorem filter_insertionSort_ord (o : Nat) (l : List InventoryItem) :
    (List.insertionSort itemLE l).filter (fun it => it.ordinal == o) =
      l.filter (fun it => it.ordinal == o) := by
  induction l with
  | nil => rfl
  | cons a l ih =>
    rw [List.insertionSort, filter_orderedInsert_ord, List.filter_cons]
    by_cases ha : a.ordinal = o
    · rw [if_pos ha, if_pos (by simp [ha]), ih]
    · rw [if_neg ha, if_neg (by simp [ha]), ih]

/-- Two ordinal-sorted lists with the same ordinal classes in the same
order are equal. -/
theorem eq_of_sorted_filter_ord :
    ∀ (S S' : List InventoryItem), List.Sorted itemLE S → List.Sorted itemLE S' →
      (∀ o : Nat, S.filter (fun it => it.ordinal == o) =
        S'.filter (fun it => it.ordinal == o)) →
      S = S' := by
  intro S
  induction S with
  | nil =>
    intro S' _ _ hf
    cases S' with
    | nil => rfl
    | cons b tl' =>
      have h := hf b.ordinal
      rw [List.filter_nil, List.filter_cons, if_pos (by simp)] at h
      exact absurd h (by simp)
  | cons a tl ih =>
    intro S' h1 h2 hf
    cases S' with
    | nil =>
      have h := hf a.ordinal
      rw [List.filter_nil, List.filter_cons, if_pos (by simp)] at h
      exact absurd h (by simp)
    | cons b tl' =>
      obtain ⟨h1a, h1tl⟩ := List.sorted_cons.mp h1
      obtain ⟨h2b, h2tl⟩ := List.sorted_cons.mp h2
      have hma : a ∈ b :: tl' := by
        have h := hf a.ordinal
        rw [List.filter_cons, if_pos (by simp)] at h
        have h3 : a ∈ (b :: tl').filter (fun it => it.ordinal == a.ordinal) := by
          rw [← h]; exact List.mem_cons_self a _
        exact (List.mem_filter.mp h3).1
      have hmb : b ∈ a :: tl := by
        have h := hf b.ordinal
        have h3 : b ∈ (b :: tl').filter (fun it => it.ordinal == b.ordinal) := by
          rw [List.filter_cons, if_pos (by simp)]
          exact List.mem_cons_self b _
        rw [← h] at h3
        exact (List.mem_filter.mp h3).1
      have hba : b.ordinal ≤ a.ordinal := by
        rcases List.mem_cons.mp hma with h | h
        · rw [h]
        · exact h2b a h
      have hab : a.ordinal ≤ b.ordinal := by
        rcases List.mem_cons.mp hmb with h | h
        · rw [h]
        · exact h1a b h
      have ho : b.ordinal = a.ordinal := by omega
      have hfo := hf a.ordinal
      rw [List.filter_cons, if_pos (by simp), List.filter_cons,
        if_pos (by simp [ho])] at hfo
      simp only [List.cons.injEq] at hfo
      obtain ⟨hhd, htlf⟩ := hfo
      have htl : tl = tl' := by
        apply ih tl' h1tl h2tl
        intro o
        by_cases ho2 : o = a.ordinal
        · rw [ho2]; exact htlf
        · have h := hf o
          rw [List.filter_cons, if_neg (by simp; omega), List.filter_cons,
            if_neg (by simp [ho]; omega)] at h
          exact h
      rw [hhd, htl]

/-- Reordering the association list (the model of a different HashMap
iteration order) does not change any ordinal class of the flattened
inventory, provided keys are unique and ordinals are key-separated. -/
theorem filter_flatten_perm (o : Nat) (m' m : LedgerMap) (hp : m'.Perm m) :
    (m.map Prod.fst).Nodup → SepOrd m →
    ((m'.map Prod.snd).flatten).filter (fun it => it.ordinal == o) =
      ((m.map Prod.snd).flatten).filter (fun it => it.ordinal == o) := by
  induction hp with
  | nil => intro _ _; rfl
  | cons x hpt ih =>
    intro hnd hsep
    simp only [List.map_cons, List.flatten_cons, List.filter_append]
    rw [ih ?_ ?_]
    · simp only [List.map_cons, List.nodup_cons] at hnd
      exact hnd.2
    · intro u hu v hv o2 hu2 hv2
      exact hsep u (List.mem_cons_of_mem _ hu) v (List.mem_cons_of_mem _ hv) o2 hu2 hv2
  | swap x y l =>
    intro hnd hsep
    simp only [List.map_cons, List.flatten_cons, List.filter_append,
      ← List.append_assoc]
    have hcomm : (y.2.filter (fun it => it.ordinal == o)) ++
        (x.2.filter (fun it => it.ordinal == o)) =
        (x.2.filter (fun it => it.ordinal == o)) ++
        (y.2.filter (fun it => it.ordinal == o)) := by
      by_cases hx : x.2.filter (fun it => it.ordinal == o) = []
      · rw [hx, List.append_nil, List.nil_append]
      · by_cases hy : y.2.filter (fun it => it.ordinal == o) = []
        · rw [hy, List.append_nil, List.nil_append]
        · exfalso
          obtain ⟨u, hu⟩ := List.exists_mem_of_ne_nil _ hx
          obtain ⟨v, hv⟩ := List.exists_mem_of_ne_nil _ hy
          obtain ⟨hu1, hu2⟩ := List.mem_filter.mp hu
          obtain ⟨hv1, hv2⟩ := List.mem_filter.mp hv
          have hkey : x.1 = y.1 := hsep x (by simp) y (by simp) o
            ⟨u, hu1, by simpa using hu2⟩ ⟨v, hv1, by simpa using hv2⟩
          simp only [List.map_cons, List.nodup_cons, List.mem_cons] at hnd
          exact hnd.1 (Or.inl hkey)
    rw [hcomm]
  | trans h12 h23 ih12 ih23 =>
    intro hnd hsep
    refine Eq.trans (ih12 ?_ ?_) (ih23 hnd hsep)
    · exact ((h23.map Prod.fst).nodup_iff).mpr hnd
    · exact fun u hu v hv o2 h1 h2 =>
        hsep u (h23.subset hu) v (h23.subset hv) o2 h1 h2

theorem invO_push (s : LedgerMap) (B : Nat) (a : Asset) (x : InventoryItem)
    (hs : InvO s B) (hxo : B ≤ x.ordinal) :
    InvO (entryPush s a x) (x.ordinal + 1) := by
  refine ⟨?_, ?_, ?_, ?_⟩
  · rw [entryPush_eq_extend]
    exact keysNodup_entryExtend s a [x] hs.nodup
  · intro e he
    rcases mem_entryPush s a x e he with he | ⟨hk, he2⟩
    · exact hs.sorted e he
    · rcases he2 with he2 | ⟨q0, hq0, he2⟩
      · rw [he2]
        exact List.pairwise_singleton _ _
      · rw [he2, List.pairwise_append]
        refine ⟨hs.sorted (a, q0) hq0, List.pairwise_singleton _ _, ?_⟩
        intro u hu v hv
        simp only [List.mem_singleton] at hv
        have := hs.bdd (a, q0) hq0 u hu
        show u.ordinal ≤ v.ordinal
        rw [hv]
        omega
  · intro e he it hit
    rcases mem_entryPush s a x e he with he | ⟨hk, he2⟩
    · have := hs.bdd e he it hit
      omega
    · rcases he2 with he2 | ⟨q0, hq0, he2⟩
      · rw [he2] at hit
        simp only [List.mem_singleton] at hit
        subst hit
        omega
      · rw [he2] at hit
        rcases List.mem_append.mp hit with hit | hit
        · have := hs.bdd (a, q0) hq0 it hit
          omega
        · simp only [List.mem_singleton] at hit
          subst hit
          omega
  · have htrans : ∀ e ∈ entryPush s a x, ∀ o : Nat, hasOrd e.2 o →
        (∃ e0 ∈ s, e0.1 = e.1 ∧ hasOrd e0.2 o) ∨ (e.1 = a ∧ o = x.ordinal) := by
      intro e he o hoe
      rcases mem_entryPush s a x e he with he | ⟨hk, he2⟩
      · exact Or.inl ⟨e, he, rfl, hoe⟩
      · rcases he2 with he2 | ⟨q0, hq0, he2⟩
        · rw [he2] at hoe
          obtain ⟨it, hit, hito⟩ := hoe
          simp only [List.mem_singleton] at hit
          subst hit
          exact Or.inr ⟨hk, hito.symm⟩
        · rw [he2] at hoe
          obtain ⟨it, hit, hito⟩ := hoe
          rcases List.mem_append.mp hit with hit | hit
          · exact Or.inl ⟨(a, q0), hq0, hk.symm, it, hit, hito⟩
          · simp only [List.mem_singleton] at hit
            subst hit
            exact Or.inr ⟨hk, hito.symm⟩
    intro u hu v hv o h1 h2
    rcases htrans u hu o h1 with ⟨e0, he0, hk0, ho0⟩ | ⟨hk0, ho0⟩ <;>
      rcases htrans v hv o h2 with ⟨e1, he1, hk1, ho1⟩ | ⟨hk1, ho1⟩
    · rw [← hk0, ← hk1]
      exact hs.sep e0 he0 e1 he1 o ho0 ho1
    · exfalso
      obtain ⟨it, hit, hito⟩ := ho0
      have := hs.bdd e0 he0 it hit
      omega
    · exfalso
      obtain ⟨it, hit, hito⟩ := ho1
      have := hs.bdd e1 he1 it hit
      omega
    · rw [hk0, hk1]

theorem invO_sell (s : LedgerMap) (B : Nat) (t : Transaction) (r : SellOut)
    (hs : InvO s B) (hto : B ≤ t.ordinal)
    (h : process_selling_or_swap s t = some r) :
    InvO r.map (t.ordinal + 1) := by
  obtain ⟨q, inv', ri, ro, frs, hq, hl, hr⟩ := sell_destruct s t r h
  subst hr
  have facts := sell_loop_facts t q _ _ _ _ _ _ _ hl
  have hlen : inv'.length = q.length := facts.len
  have hmemq : (t.input_type, q) ∈ s := findAsset_mem s _ q hq
  have hord_pt : ∀ (k : Nat) (hk' : k < inv'.length) (hk : k < q.length),
      (inv'.get ⟨k, hk'⟩).ordinal = (q.get ⟨k, hk⟩).ordinal := by
    intro k hk' hk
    rw [facts.shape k hk hk']
    rfl
  have hinv_hasOrd : ∀ o, hasOrd inv' o → hasOrd q o := by
    intro o ho
    obtain ⟨it, hit, hito⟩ := ho
    obtain ⟨n, hn⟩ := List.mem_iff_get.mp hit
    subst hn
    exact ⟨q.get ⟨n.1, by omega⟩, List.get_mem _ _ _,
      by rw [← hord_pt n.1 n.2 (by omega)]; exact hito⟩
  have hinv_bdd : ∀ it ∈ inv', it.ordinal < B := by
    intro it hit
    obtain ⟨n, hn⟩ := List.mem_iff_get.mp hit
    subst hn
    rw [hord_pt n.1 n.2 (by omega)]
    exact hs.bdd _ hmemq _ (List.get_mem _ _ _)
  have hinv_sorted : inv'.Pairwise itemLE := by
    rw [List.pairwise_iff_get]
    intro i j hij
    have hij' : i.1 < j.1 := hij
    show (inv'.get i).ordinal ≤ (inv'.get j).ordinal
    rw [hord_pt i.1 i.2 (by omega), hord_pt j.1 j.2 (by omega)]
    have hiq : i.1 < q.length := by rw [← hlen]; exact i.2
    have hjq : j.1 < q.length := by rw [← hlen]; exact j.2
    exact (List.pairwise_iff_get.mp (hs.sorted _ hmemq))
      ⟨i.1, hiq⟩ ⟨j.1, hjq⟩ (Fin.mk_lt_mk.mpr hij')
  have hfr_ord : ∀ it ∈ frs.map Prod.snd, it.ordinal = t.ordinal := by
    intro it hit
    obtain ⟨p, hp, hpe⟩ := List.mem_map.mp hit
    subst hpe
    obtain ⟨k, hk, hk', _, ho, _, _, _, _, _, _, _, _, _, _, _⟩ := facts.frag p hp
    exact ho
  have hfr_sorted : (frs.map Prod.snd).Pairwise itemLE := by
    rw [List.pairwise_iff_get]
    intro i j _
    show ((frs.map Prod.snd).get i).ordinal ≤ ((frs.map Prod.snd).get j).ordinal
    rw [hfr_ord _ (List.get_mem _ _ _), hfr_ord _ (List.get_mem _ _ _)]
  refine ⟨?_, ?_, ?_, ?_⟩
  · exact keysNodup_entryExtend _ _ _ (keysNodup_setAsset s _ inv' hs.nodup)
  · intro e he
    rcases mem_entryExtend _ _ _ _ he with he1 | ⟨hk, he2⟩
    · rcases mem_setAsset _ _ _ _ he1 with he1 | ⟨_, he3⟩
      · exact hs.sorted e he1
      · rw [he3]
        exact hinv_sorted
    · rcases he2 with he2 | ⟨q0, hq0, he2⟩
      · rw [he2]
        exact hfr_sorted
      · rw [he2, List.pairwise_append]
        have hq0src : q0.Pairwise itemLE ∧ (∀ it ∈ q0, it.ordinal < B) := by
          rcases mem_setAsset _ _ _ _ hq0 with hq0 | ⟨_, hq1⟩
          · exact ⟨hs.sorted _ hq0, fun it hit => hs.bdd _ hq0 it hit⟩
          · have hq1' : q0 = inv' := hq1
            rw [hq1']
            exact ⟨hinv_sorted, hinv_bdd⟩
        refine ⟨hq0src.1, hfr_sorted, ?_⟩
        intro u hu v hv
        have h1 := hq0src.2 u hu
        have h2 := hfr_ord v hv
        show u.ordinal ≤ v.ordinal
        omega
  · intro e he it hit
    rcases mem_item_sell_key s t.input_type t.output_type inv' (frs.map Prod.snd)
        e he it hit with ⟨e0, he0, _, hit0⟩ | ⟨_, hit0⟩ | ⟨_, hit0⟩
    · have := hs.bdd e0 he0 it hit0
      omega
    · have := hinv_bdd it hit0
      omega
    · rw [hfr_ord it hit0]
      omega
  · have htrans : ∀ e ∈ entryExtend (setAsset s t.input_type inv') t.output_type
        (frs.map Prod.snd), ∀ o : Nat, hasOrd e.2 o →
          (∃ e0 ∈ s, e0.1 = e.1 ∧ hasOrd e0.2 o) ∨
            (e.1 = t.output_type ∧ o = t.ordinal) := by
      intro e he o ho
      obtain ⟨it, hit, hito⟩ := ho
      rcases mem_item_sell_key s t.input_type t.output_type inv' (frs.map Prod.snd)
          e he it hit with ⟨e0, he0, hk, hit0⟩ | ⟨hk, hit0⟩ | ⟨hk, hit0⟩
      · exact Or.inl ⟨e0, he0, hk, it, hit0, hito⟩
      · exact Or.inl ⟨(t.input_type, q), hmemq, hk.symm,
          hinv_hasOrd o ⟨it, hit0, hito⟩⟩
      · exact Or.inr ⟨hk, by rw [← hito, hfr_ord it hit0]⟩
    intro u hu v hv o h1 h2
    rcases htrans u hu o h1 with ⟨e0, he0, hk0, ho0⟩ | ⟨hk0, ho0⟩ <;>
      rcases htrans v hv o h2 with ⟨e1, he1, hk1, ho1⟩ | ⟨hk1, ho1⟩
    · rw [← hk0, ← hk1]
      exact hs.sep e0 he0 e1 he1 o ho0 ho1
    · exfalso
      obtain ⟨it, hit, hito⟩ := ho0
      have := hs.bdd e0 he0 it hit
      omega
    · exfalso
      obtain ⟨it, hit, hito⟩ := ho1
      have := hs.bdd e1 he1 it hit
      omega
    · rw [hk0, hk1]

theorem invO_step (pp : PriceProvider) (s : LedgerMap) (B : Nat) (t : Transaction)
    (hs : InvO s B) (hto : B ≤ t.ordinal)
    (s' : LedgerMap) (ev : List Event) (lg : Option Rat)
    (h : add_transaction pp s t = some (s', ev, lg)) : InvO s' (t.ordinal + 1) := by
  have hbuy : ∀ s1, process_buying s t = some s1 → InvO s1 (t.ordinal + 1) := by
    intro s1 h1
    rw [process_buying] at h1
    rcases hcb : t.cost_basis with _ | cb <;> rw [hcb] at h1
    · exact absurd h1 (by simp)
    simp only [Option.some.injEq] at h1
    subst h1
    exact invO_push s B t.output_type _ hs hto
  have hint : ∀ s1, process_interest pp s t = some s1 → InvO s1 (t.ordinal + 1) := by
    intro s1 h1
    rw [process_interest] at h1
    rcases hpp : pp t.output_type t.date with _ | price <;> rw [hpp] at h1
    · exact absurd h1 (by simp)
    simp only [Option.some.injEq] at h1
    subst h1
    exact invO_push s B t.output_type _ hs hto
  have htrf : ∀ r : SellOut, process_transfer s t = some r → InvO r.map (t.ordinal + 1) := by
    intro r hr
    rw [process_transfer] at hr
    split_ifs at hr with heq
    · exact invO_sell s B (dummy_tx t) r hs hto hr
    · exact invO_sell s B t r hs hto hr
  rw [add_transaction] at h
  cases htt : t.tx_type <;> rw [htt] at h <;>
    simp only [Option.map_eq_some', Prod.mk.injEq] at h <;>
    obtain ⟨x, h1, rfl, rfl, rfl⟩ := h
  case Invoice.intro.intro.intro.intro => exact hbuy x h1
  case Buying.intro.intro.intro.intro => exact hbuy x h1
  case Interest.intro.intro.intro.intro => exact hint x h1
  case Airdrop.intro.intro.intro.intro => exact hint x h1
  case Swap.intro.intro.intro.intro => exact invO_sell s B t x hs hto h1
  case Selling.intro.intro.intro.intro => exact invO_sell s B t x hs hto h1
  case Nft.intro.intro.intro.intro => exact invO_sell s B t x hs hto h1
  case Lock.intro.intro.intro.intro => exact invO_sell s B t x hs hto h1
  case Fees.intro.intro.intro.intro => exact invO_sell s B t x hs hto h1
  case Transfer.intro.intro.intro.intro => exact htrf x h1
  case Bridge.intro.intro.intro.intro => exact htrf x h1

theorem invO_empty : InvO [] 0 := by
  refine ⟨List.nodup_nil, ?_, ?_, ?_⟩
  · intro e he
    exact absurd he (by simp)
  · intro e he
    exact absurd he (by simp)
  · intro u hu
    exact absurd hu (by simp)

theorem invO_process (pp : PriceProvider) (txs : List Transaction) :
    ∀ (s : LedgerMap) (B : Nat), InvO s B →
      txs.Pairwise (fun a b => a.ordinal < b.ordinal) →
      (∀ t ∈ txs, B ≤ t.ordinal) →
      ∀ s' evs', process_from pp s txs = some (s', evs') → ∃ B', InvO s' B' := by
  induction txs with
  | nil =>
    intro s B hs _ _ s' evs' h
    simp only [process_from, Option.some.injEq, Prod.mk.injEq] at h
    exact ⟨B, h.1 ▸ hs⟩
  | cons t ts ih =>
    intro s B hs hpw hge s' evs' h
    rw [process_from] at h
    split at h
    · exact absurd h (by simp)
    · rename_i s1 ev lg h1
      split at h
      · exact absurd h (by simp)
      · rename_i s2 evs2 h2
        simp only [Option.some.injEq, Prod.mk.injEq] at h
        have hstep := invO_step pp s B t hs (hge t (by simp)) s1 ev lg h1
        have hpw' := List.pairwise_cons.mp hpw
        refine h.1 ▸ ih s1 (t.ordinal + 1) hstep hpw'.2 ?_ s2 evs2 h2
        intro u hu
        have := hpw'.1 u hu
        omega

/-- C9: reads are pure and deterministic.  The queries are pure functions
of the ledger map, so re-running them cannot mutate anything and two
ledgers built from equal transaction lists and price providers hold equal
maps; the content of the claim is that the results are also independent of
the hash-map iteration order, modelled here as an arbitrary permutation
applied to the association list of a reachable ledger: in_order and the
yearly report are unchanged by the permutation. -/
theorem C9_read_determinism (pp : PriceProvider) (txs : List Transaction)
    (hord : txs.Pairwise (fun a b => a.ordinal < b.ordinal))
    (m : LedgerMap) (evs : List Event)
    (h : process_from pp [] txs = some (m, evs))
    (m' : LedgerMap) (hp : m'.Perm m) :
    in_order_from m' = in_order_from m ∧
      yearly_entries_from m' = yearly_entries_from m := by
  obtain ⟨B, hinv⟩ :=
    invO_process pp txs [] 0 invO_empty hord (fun t _ => Nat.zero_le _) m evs h
  have h1 : in_order_from m' = in_order_from m := by
    apply eq_of_sorted_filter_ord
    · exact List.sorted_insertionSort itemLE _
    · exact List.sorted_insertionSort itemLE _
    · intro o
      simp only [in_order_from]
      rw [filter_insertionSort_ord, filter_insertionSort_ord]
      exact filter_flatten_perm o m' m hp hinv.nodup hinv.sep
  refine ⟨h1, ?_⟩
  simp only [yearly_entries_from]
  rw [h1]

theorem C9_read_determinism_witness :
    ([txBuy100, txSell40].Pairwise (fun a b => a.ordinal < b.ordinal)) ∧
    (process_from ppD [] [txBuy100, txSell40] =
      some ([("X", [itemBuy100after]), ("EUR", [fragSell40])], [("X", 0, 40)])) ∧
    in_order_from [("EUR", [fragSell40]), ("X", [itemBuy100after])] =
      in_order_from [("X", [itemBuy100after]), ("EUR", [fragSell40])] ∧
    yearly_entries_from [("EUR", [fragSell40]), ("X", [itemBuy100after])] =
      yearly_entries_from [("X", [itemBuy100after]), ("EUR", [fragSell40])] :=
  ⟨by decide,
    by norm_num [process_from, add_transaction, process_buying,
      process_selling_or_swap, sell_loop, consumedAmt, allocAmt, loopCb,
      mkFrag, setRem, entryPush, entryExtend, setAsset, findAsset, tx_events,
      Transaction.cost_basis, Transaction.sale_price, Asset.is_fiat, Asset.EUR,
      txBuy100, txSell40, ppD, dJan1, dJan2, itemBuy100after, fragSell40] <;> decide,
    (C9_read_determinism ppD [txBuy100, txSell40] (by decide)
      [("X", [itemBuy100after]), ("EUR", [fragSell40])] [("X", 0, 40)]
      (by norm_num [process_from, add_transaction, process_buying,
        process_selling_or_swap, sell_loop, consumedAmt, allocAmt, loopCb,
        mkFrag, setRem, entryPush, entryExtend, setAsset, findAsset, tx_events,
        Transaction.cost_basis, Transaction.sale_price, Asset.is_fiat, Asset.EUR,
        txBuy100, txSell40, ppD, dJan1, dJan2, itemBuy100after, fragSell40] <;> decide)
      [("EUR", [fragSell40]), ("X", [itemBuy100after])]
      (List.Perm.swap _ _ _)).1,
    (C9_read_determinism ppD [txBuy100, txSell40] (by decide)
      [("X", [itemBuy100after]), ("EUR", [fragSell40])] [("X", 0, 40)]
      (by norm_num [process_from, add_transaction, process_buying,
        process_selling_or_swap, sell_loop, consumedAmt, allocAmt, loopCb,
        mkFrag, setRem, entryPush, entryExtend, setAsset, findAsset, tx_events,
        Transaction.cost_basis, Transaction.sale_price, Asset.is_fiat, Asset.EUR,
        txBuy100, txSell40, ppD, dJan1, dJan2, itemBuy100after, fragSell40] <;> decide)
      [("EUR", [fragSell40]), ("X", [itemBuy100after])]
      (List.Perm.swap _ _ _)).2⟩

/-- FIFO at the level of one disposal: if the disposal consumed anything
from queue position j, every earlier position i whose lot carries a
strictly smaller ordinal ends the disposal with remaining_amount zero. -/
theorem fifo_sell (s : LedgerMap) (t0 : Transaction) (r : SellOut)
    (hnn : RemNonneg s) (hsorted : ∀ e ∈ s, e.2.Pairwise itemLE)
    (h : process_selling_or_swap s t0 = some r)
    (a : Asset) (q : List InventoryItem) (hq : findAsset s a = some q)
    (i j : Nat) (hi : i < q.length) (hj : j < q.length)
    (holt : (q.get ⟨i, hi⟩).ordinal < (q.get ⟨j, hj⟩).ordinal)
    (hcons : eventSum (tx_events t0.input_type r.frags) a j ≠ 0) :
    ∃ (q' : List InventoryItem) (hi' : i < q'.length),
      findAsset r.map a = some q' ∧ q'.get ⟨i, hi'⟩ = setRem (q.get ⟨i, hi⟩) 0 := by
  by_cases ha : a = t0.input_type
  case neg =>
    exact absurd (eventSum_tx_events_ne t0.input_type a r.frags j ha) hcons
  subst ha
  obtain ⟨q0, inv', ri, ro, frs, hq0, hl, hr⟩ := sell_destruct s t0 r h
  subst hr
  rw [hq] at hq0
  simp only [Option.some.injEq] at hq0
  subst hq0
  have facts := sell_loop_facts t0 q _ _ _ _ _ _ _ hl
  have hlen : inv'.length = q.length := facts.len
  have hi' : i < inv'.length := by omega
  have hj' : j < inv'.length := by omega
  rw [eventSum_tx_events_same] at hcons
  have hsum : eventSumFr frs j =
      (q.get ⟨j, hj⟩).remaining_amount - (inv'.get ⟨j, hj'⟩).remaining_amount := by
    have hc := facts.consumed j hj hj'
    rwa [Nat.zero_add] at hc
  have htouch : (inv'.get ⟨j, hj'⟩).remaining_amount ≠
      (q.get ⟨j, hj⟩).remaining_amount := by
    intro he
    apply hcons
    rw [hsum, he]
    ring
  have hij : i < j := by
    rcases lt_trichotomy i j with hlt | heq | hgt
    · exact hlt
    · exfalso
      subst heq
      exact lt_irrefl _ holt
    · exfalso
      have hpw := List.pairwise_iff_get.mp (hsorted _ (findAsset_mem s _ q hq))
      have hle := hpw ⟨j, hj⟩ ⟨i, hi⟩ (Fin.mk_lt_mk.mpr hgt)
      exact absurd holt (not_lt.mpr hle)
  have hzero := sell_loop_fifo t0 q _ _ _ _ _ _ _ hl
    (fun it hit => hnn _ (findAsset_mem s _ q hq) it hit) i j hi hj hi' hj' hij htouch
  have hshape := facts.shape i hi hi'
  rw [hzero] at hshape
  rw [findAsset_after_sell s t0.input_type t0.output_type q inv'
    (frs.map Prod.snd) hq t0.input_type]
  by_cases hout : t0.input_type = t0.output_type
  · rw [if_pos hout, if_pos hout]
    refine ⟨inv' ++ frs.map Prod.snd, by rw [List.length_append]; omega, rfl, ?_⟩
    rw [get_append_left inv' (frs.map Prod.snd) i hi']
    exact hshape
  · rw [if_neg hout, if_pos rfl]
    exact ⟨inv', hi', rfl, hshape⟩

/-- C4: FIFO consumption order.  Along any admissible transaction list
(strictly increasing ordinals, well-signed amounts), if processing the next
transaction consumes any amount from a lot of some queue, then every lot of
that queue with a strictly smaller ordinal comes out of that transaction
with remaining_amount zero — it was either already exhausted or is fully
exhausted by this same disposal. -/
theorem C4_fifo_order (pp : PriceProvider) (txs p rest : List Transaction)
    (t : Transaction) (hsplit : txs = p ++ t :: rest)
    (hord : txs.Pairwise (fun a b => a.ordinal < b.ordinal))
    (hok : ∀ u ∈ txs, AmountOk u)
    (s : LedgerMap) (evs : List Event)
    (hpre : process_from pp [] p = some (s, evs))
    (s' : LedgerMap) (ev : List Event) (lg : Option Rat)
    (ht : add_transaction pp s t = some (s', ev, lg))
    (a : Asset) (q : List InventoryItem) (hq : findAsset s a = some q)
    (i j : Nat) (hi : i < q.length) (hj : j < q.length)
    (holt : (q.get ⟨i, hi⟩).ordinal < (q.get ⟨j, hj⟩).ordinal)
    (hcons : eventSum ev a j ≠ 0) :
    ∃ (q' : List InventoryItem) (hi' : i < q'.length),
      findAsset s' a = some q' ∧ q'.get ⟨i, hi'⟩ = setRem (q.get ⟨i, hi⟩) 0 := by
  have hokp : ∀ u ∈ p, AmountOk u := fun u hu =>
    hok u (by rw [hsplit]; exact List.mem_append.mpr (Or.inl hu))
  rw [hsplit] at hord
  have hordp := (List.pairwise_append.mp hord).1
  have hinvA := invA_process pp p [] [] invA_empty hokp s evs hpre
  obtain ⟨B, hinvO⟩ :=
    invO_process pp p [] 0 invO_empty hordp (fun u _ => Nat.zero_le _) s evs hpre
  rw [add_transaction] at ht
  cases htt : t.tx_type <;> rw [htt] at ht <;>
    simp only [Option.map_eq_some', Prod.mk.injEq] at ht
  case Buying =>
    obtain ⟨x, h1, rfl, rfl, rfl⟩ := ht
    exact absurd rfl hcons
  case Invoice =>
    obtain ⟨x, h1, rfl, rfl, rfl⟩ := ht
    exact absurd rfl hcons
  case Interest =>
    obtain ⟨x, h1, rfl, rfl, rfl⟩ := ht
    exact absurd rfl hcons
  case Airdrop =>
    obtain ⟨x, h1, rfl, rfl, rfl⟩ := ht
    exact absurd rfl hcons
  case Swap =>
    obtain ⟨x, h1, rfl, rfl, rfl⟩ := ht
    exact fifo_sell s t x hinvA.nonneg hinvO.sorted h1 a q hq i j hi hj holt hcons
  case Selling =>
    obtain ⟨x, h1, rfl, rfl, rfl⟩ := ht
    exact fifo_sell s t x hinvA.nonneg hinvO.sorted h1 a q hq i j hi hj holt hcons
  case Nft =>
    obtain ⟨x, h1, rfl, rfl, rfl⟩ := ht
    exact fifo_sell s t x hinvA.nonneg hinvO.sorted h1 a q hq i j hi hj holt hcons
  case Lock =>
    obtain ⟨x, h1, rfl, rfl, rfl⟩ := ht
    exact fifo_sell s t x hinvA.nonneg hinvO.sorted h1 a q hq i j hi hj holt hcons
  case Fees =>
    obtain ⟨x, h1, rfl, rfl, rfl⟩ := ht
    exact fifo_sell s t x hinvA.nonneg hinvO.sorted h1 a q hq i j hi hj holt hcons
  case Transfer =>
    obtain ⟨x, h1, rfl, rfl, rfl⟩ := ht
    rw [process_transfer] at h1
    split_ifs at h1 with heq
    · exact fifo_sell s (dummy_tx t) x hinvA.nonneg hinvO.sorted h1 a q hq
        i j hi hj holt hcons
    · exact fifo_sell s t x hinvA.nonneg hinvO.sorted h1 a q hq i j hi hj holt hcons
  case Bridge =>
    obtain ⟨x, h1, rfl, rfl, rfl⟩ := ht
    rw [process_transfer] at h1
    split_ifs at h1 with heq
    · exact fifo_sell s (dummy_tx t) x hinvA.nonneg hinvO.sorted h1 a q hq
        i j hi hj holt hcons
    · exact fifo_sell s t x hinvA.nonneg hinvO.sorted h1 a q hq i j hi hj holt hcons

theorem C4_fifo_order_witness :
    (process_from ppD [] [txBuy100, txBuy100b] = some (mC4, [])) ∧
    (add_transaction ppD mC4 txSell150 = some (mC4sold, evC4, none)) ∧
    (([itemBuy100full, itemBuy100b].get ⟨0, by decide⟩).ordinal <
      ([itemBuy100full, itemBuy100b].get ⟨1, by decide⟩).ordinal) ∧
    eventSum evC4 "X" 1 ≠ 0 ∧
    (∃ (q' : List InventoryItem) (hi' : 0 < q'.length),
      findAsset mC4sold "X" = some q' ∧
      q'.get ⟨0, hi'⟩ = setRem ([itemBuy100full, itemBuy100b].get ⟨0, by decide⟩) 0) :=
  ⟨by norm_num [process_from, add_transaction, process_buying, entryPush,
      findAsset, Transaction.cost_basis, txBuy100, txBuy100b, ppD,
      dJan1, dJan2, mC4, itemBuy100full, itemBuy100b] <;> decide,
    by norm_num [add_transaction, process_selling_or_swap, sell_loop,
      consumedAmt, allocAmt, loopCb, mkFrag, setRem, entryExtend, setAsset,
      findAsset, tx_events, Transaction.cost_basis, Transaction.sale_price,
      Asset.is_fiat, txSell150, ppD, dJan1, dJan2, dFeb1, mC4, mC4sold, evC4,
      itemBuy100full, itemBuy100b, fragSell150a, fragSell150b] <;> decide,
    by decide,
    by norm_num [eventSum, evC4],
    C4_fifo_order ppD [txBuy100, txBuy100b, txSell150] [txBuy100, txBuy100b] []
      txSell150 rfl (by decide)
      (by intro u hu
          rcases List.mem_cons.mp hu with rfl | hu
          · exact ⟨by norm_num [txBuy100], by norm_num [txBuy100], by intro hc _; rcases hc with hc | hc <;> exact absurd hc (by decide)⟩
          · rcases List.mem_cons.mp hu with rfl | hu
            · exact ⟨by norm_num [txBuy100b], by norm_num [txBuy100b], by intro hc _; rcases hc with hc | hc <;> exact absurd hc (by decide)⟩
            · rcases List.mem_cons.mp hu with rfl | hu
              · exact ⟨by norm_num [txSell150], by norm_num [txSell150], by intro hc _; rcases hc with hc | hc <;> exact absurd hc (by decide)⟩
              · exact absurd hu (by simp))
      mC4 [] (by norm_num [process_from, add_transaction, process_buying,
        entryPush, findAsset, Transaction.cost_basis, txBuy100, txBuy100b, ppD,
        dJan1, dJan2, mC4, itemBuy100full, itemBuy100b] <;> decide)
      mC4sold evC4 none (by norm_num [add_transaction, process_selling_or_swap,
        sell_loop, consumedAmt, allocAmt, loopCb, mkFrag, setRem, entryExtend,
        setAsset, findAsset, tx_events, Transaction.cost_basis,
        Transaction.sale_price, Asset.is_fiat, txSell150, ppD, dJan1, dJan2,
        dFeb1, mC4, mC4sold, evC4, itemBuy100full, itemBuy100b, fragSell150a,
        fragSell150b] <;> decide)
      "X" [itemBuy100full, itemBuy100b] (by norm_num [findAsset, mC4])
      0 1 (by decide) (by decide) (by decide)
      (by norm_num [eventSum, evC4])⟩

end Fifo
